import Mathlib

/-!
Verification of the structure-preserving, glossary-aware translation pipeline
(`helpers/translation.py` and `agents/tools/terms.py`).

The Python data structures and functions are shallowly embedded: JSON-like
values become the mutual inductive `TV`/`TVs`/`TVm`, paths become `List Tok`,
text is handled as `List Char`, and fallible operations (Python code that can
raise) return `Option`.  Python's `str.isalnum`/`str.isspace`/`str.lower` are
modelled on the ASCII range, which covers every decision point exercised here.
-/

/-! ## Python character and string primitives -/

/-- Model of Python `str.isspace` at the character level (ASCII whitespace). -/
def pyIsSpace (c : Char) : Bool :=
  c = ' ' || c = '\t' || c = '\n' || c = '\r' || c = '\x0b' || c = '\x0c'

/-- Model of Python `str.isalnum` at the character level (ASCII letters and digits). -/
def pyIsAlnum (c : Char) : Bool :=
  c.isAlphanum

/-- A regex word character (`\w`): alphanumeric or underscore. -/
def isWordChar (c : Char) : Bool :=
  pyIsAlnum c || c = '_'

/-- Model of Python `str.isspace` on a whole string: nonempty and all whitespace. -/
def pyStrIsSpace (s : String) : Bool :=
  !s.toList.isEmpty && s.toList.all pyIsSpace

/-- Model of Python `str.strip` on a character list: drop leading and trailing
whitespace. -/
def pyStrip (s : List Char) : List Char :=
  (((s.dropWhile pyIsSpace).reverse).dropWhile pyIsSpace).reverse

/-- Case-fold a character list, modelling `str.lower` on the ASCII range. -/
def lowerChars (s : List Char) : List Char :=
  s.map Char.toLower

/-- `str.lower` on a whole string. -/
def pyStrLower (s : String) : String :=
  String.mk (lowerChars s.toList)

/-! ## Tree values (`TreeValue` of the spec, i.e. arbitrary JSON-like data) -/

mutual
/-- A JSON-like value: the data structures `BaseTranslator.translate` walks. -/
inductive TV where
  | null
  | boolv (b : Bool)
  | numv (n : Int)
  | strv (s : String)
  | seqv (xs : TVs)
  | mapv (kvs : TVm)
  deriving Repr, DecidableEq
/-- A sequence of tree values (a Python `list`). -/
inductive TVs where
  | nil
  | cons (hd : TV) (tl : TVs)
  deriving Repr, DecidableEq
/-- An insertion-ordered string-keyed mapping (a Python `dict`). -/
inductive TVm where
  | nil
  | cons (k : String) (v : TV) (tl : TVm)
  deriving Repr, DecidableEq
end

/-- A path token: a mapping key or a sequence index. -/
inductive Tok where
  | key (k : String)
  | idx (i : Nat)
  deriving Repr, DecidableEq

/-- Model of Python `str(key)` applied to a path token. -/
def Tok.str : Tok → String
  | .key k => k
  | .idx i => toString i

/-! ## `BaseTranslator` path and string predicates -/

/-- Model of `BaseTranslator._should_skip_path`: skip when the exclude set is
nonempty and some token on the path stringifies into it. -/
def shouldSkipPath (path : List Tok) (excludeKeys : List String) : Bool :=
  !excludeKeys.isEmpty && path.any (fun t => excludeKeys.contains t.str)

/-- Model of `BaseTranslator._should_translate_string`: reject empty or
all-whitespace strings, then require at least one alphanumeric character. -/
def shouldTranslateString (s : String) : Bool :=
  if s = "" || pyStrIsSpace s then false
  else s.toList.any pyIsAlnum

/-! ## Collection phase (`BaseTranslator._collect_translatable_strings`) -/

mutual
/-- The `dfs` closure of `_collect_translatable_strings`: skip excluded
subtrees, emit translatable string leaves with their paths, recurse into
mappings (by key) and sequences (by index). -/
def collectGo (ex : List String) (cur : TV) (path : List Tok) :
    List (List Tok × String) :=
  if shouldSkipPath path ex then []
  else
    match cur with
    | .strv s => if shouldTranslateString s then [(path, s)] else []
    | .mapv kvs => collectMap ex kvs path
    | .seqv xs => collectSeq ex xs path 0
    | .null => []
    | .boolv _ => []
    | .numv _ => []
/-- Iteration of `dfs` over a mapping's entries in insertion order. -/
def collectMap (ex : List String) (kvs : TVm) (path : List Tok) :
    List (List Tok × String) :=
  match kvs with
  | .nil => []
  | .cons k v rest => collectGo ex v (path ++ [Tok.key k]) ++ collectMap ex rest path
/-- Iteration of `dfs` over a sequence's elements with their indices. -/
def collectSeq (ex : List String) (xs : TVs) (path : List Tok) (i : Nat) :
    List (List Tok × String) :=
  match xs with
  | .nil => []
  | .cons x rest => collectGo ex x (path ++ [Tok.idx i]) ++ collectSeq ex rest path (i + 1)
end

/-- Model of `BaseTranslator._collect_translatable_strings`. -/
def collectTranslatableStrings (data : TV) (ex : List String) :
    List (List Tok × String) :=
  collectGo ex data []

/-- The concrete tree `{"a": "hello", "secret": {"b": "world"}}`. -/
def exampleSecretTree : TV :=
  .mapv (.cons "a" (.strv "hello")
    (.cons "secret" (.mapv (.cons "b" (.strv "world") .nil)) .nil))

/-! ## First facts about collection -/

theorem shouldSkipPath_false_tokens {path : List Tok} {ex : List String}
    (h : shouldSkipPath path ex = false) :
    ∀ t ∈ path, ex.contains t.str = false := by
  intro t ht
  unfold shouldSkipPath at h
  rcases Bool.and_eq_false_iff.mp h with h' | h'
  · have : ex.isEmpty = true := by
      cases hx : ex.isEmpty <;> simp [hx] at h' ⊢
    rcases ex with _ | _
    · simp
    · simp [List.isEmpty] at this
  · have := List.any_eq_false.mp h'
    exact Bool.not_eq_true _ ▸ (this t ht)

mutual
theorem collectGo_no_excluded (ex : List String) (cur : TV) (path : List Tok) :
    ∀ e ∈ collectGo ex cur path, ∀ t ∈ e.1, ex.contains t.str = false := by
  intro e he t ht
  unfold collectGo at he
  by_cases hskip : shouldSkipPath path ex = true
  · simp [hskip] at he
  · rw [Bool.not_eq_true] at hskip
    rw [if_neg (by simp [hskip])] at he
    match cur with
    | .null | .boolv _ | .numv _ => simp at he
    | .strv s =>
      by_cases hts : shouldTranslateString s = true
      · simp [hts] at he
        subst he
        exact shouldSkipPath_false_tokens hskip t ht
      · simp [hts] at he
    | .mapv kvs => exact collectMap_no_excluded ex kvs path e he t ht
    | .seqv xs => exact collectSeq_no_excluded ex xs path 0 e he t ht
theorem collectMap_no_excluded (ex : List String) (kvs : TVm) (path : List Tok) :
    ∀ e ∈ collectMap ex kvs path, ∀ t ∈ e.1, ex.contains t.str = false := by
  intro e he t ht
  match kvs with
  | .nil => simp [collectMap] at he
  | .cons k v rest =>
    rw [collectMap] at he
    rcases List.mem_append.mp he with h | h
    · exact collectGo_no_excluded ex v (path ++ [Tok.key k]) e h t ht
    · exact collectMap_no_excluded ex rest path e h t ht
theorem collectSeq_no_excluded (ex : List String) (xs : TVs) (path : List Tok) (i : Nat) :
    ∀ e ∈ collectSeq ex xs path i, ∀ t ∈ e.1, ex.contains t.str = false := by
  intro e he t ht
  match xs with
  | .nil => simp [collectSeq] at he
  | .cons x rest =>
    rw [collectSeq] at he
    rcases List.mem_append.mp he with h | h
    · exact collectGo_no_excluded ex x (path ++ [Tok.idx i]) e h t ht
    · exact collectSeq_no_excluded ex rest path (i + 1) e h t ht
end

/-! ## Reading and writing tree values at a path

Python raising (KeyError, IndexError, TypeError) is modelled by `none`.
Descending *into* a string (Python string indexing yields characters, but any
eventual item assignment on a string raises TypeError) is collapsed to `none`,
which has the same observable outcome for every finite path. -/

/-- First-occurrence lookup in an insertion-ordered mapping (`dict[key]`). -/
def TVm.lookup : TVm → String → Option TV
  | .nil, _ => none
  | .cons k v rest, q => if k = q then some v else rest.lookup q

/-- The keys of a mapping in insertion order. -/
def TVm.keys : TVm → List String
  | .nil => []
  | .cons k _ rest => k :: rest.keys

/-- Python `dict[key] = value`: overwrite the existing entry in place, or
append a new entry at the end. -/
def TVm.setKey : TVm → String → TV → TVm
  | .nil, q, v => .cons q v .nil
  | .cons k v0 rest, q, v =>
    if k = q then .cons k v rest else .cons k v0 (rest.setKey q v)

/-- Element access `list[i]` for a nonnegative index. -/
def TVs.get? : TVs → Nat → Option TV
  | .nil, _ => none
  | .cons x _, 0 => some x
  | .cons _ rest, n + 1 => rest.get? n

/-- The length of a sequence. -/
def TVs.length : TVs → Nat
  | .nil => 0
  | .cons _ rest => rest.length + 1

/-- In-range element assignment `list[i] = v` (identity when out of range;
the out-of-range case is guarded by the caller). -/
def TVs.set : TVs → Nat → TV → TVs
  | .nil, _, _ => .nil
  | .cons _ rest, 0, v => .cons v rest
  | .cons x rest, n + 1, v => .cons x (rest.set n v)

/-- One step of `current = current[key]` during reconstruction descent. -/
def TV.getTok : TV → Tok → Option TV
  | .mapv kvs, .key k => kvs.lookup k
  | .seqv xs, .idx i => xs.get? i
  | _, _ => none

/-- The final `current[path[-1]] = translated_text` assignment.  Mapping
assignment always succeeds (inserting when the key is absent, as Python dict
assignment does); sequence assignment requires the index in range; assignment
into any scalar raises.  A mapping indexed by an integer token would leave the
string-keyed `TreeValue` space and is likewise collapsed to `none`. -/
def TV.setTok : TV → Tok → String → Option TV
  | .mapv kvs, .key k, s => some (.mapv (kvs.setKey k (.strv s)))
  | .seqv xs, .idx i, s =>
    if i < xs.length then some (.seqv (xs.set i (.strv s))) else none
  | _, _, _ => none

/-- Write back a child at a token that is known to be present (the functional
rendering of mutating a shared child in place). -/
def TV.updTok : TV → Tok → TV → TV
  | .mapv kvs, .key k, c => .mapv (kvs.setKey k c)
  | .seqv xs, .idx i, c => .seqv (xs.set i c)
  | v, _, _ => v

/-- The reconstruction loop body for a single path: descend along all tokens
but the last, then assign the translated text at the last token.  An empty
path models `path[-1]` on an empty tuple: an IndexError, hence `none`. -/
def setPath : TV → List Tok → String → Option TV
  | _, [], _ => none
  | v, [t], s => v.setTok t s
  | v, t :: t' :: rest, s =>
    match v.getTok t with
    | none => none
    | some child =>
      match setPath child (t' :: rest) s with
      | none => none
      | some child' => some (v.updTok t child')

/-- Reading a tree value at a path (used to state properties; not part of the
Python code). -/
def getPath : TV → List Tok → Option TV
  | v, [] => some v
  | v, t :: rest =>
    match v.getTok t with
    | none => none
    | some c => getPath c rest

/-! ## Deep copy (`BaseTranslator._deep_copy`) -/

mutual
/-- Model of `_deep_copy`: rebuild dicts and lists, share scalars. -/
def deepCopyTV : TV → TV
  | .null => .null
  | .boolv b => .boolv b
  | .numv n => .numv n
  | .strv s => .strv s
  | .seqv xs => .seqv (deepCopyTVs xs)
  | .mapv kvs => .mapv (deepCopyTVm kvs)
/-- `_deep_copy` over a list's elements. -/
def deepCopyTVs : TVs → TVs
  | .nil => .nil
  | .cons x xs => .cons (deepCopyTV x) (deepCopyTVs xs)
/-- `_deep_copy` over a dict's entries. -/
def deepCopyTVm : TVm → TVm
  | .nil => .nil
  | .cons k v kvs => .cons k (deepCopyTV v) (deepCopyTVm kvs)
end

/-! ## Python dict construction from pairs (`dict(zip(paths, strings))`) -/

/-- One Python dict assignment on an association list: overwrite the value at
the first occurrence of the key, else append. -/
def pyDictInsert {α β : Type} [DecidableEq α] :
    List (α × β) → α → β → List (α × β)
  | [], k, v => [(k, v)]
  | (k0, v0) :: rest, k, v =>
    if k0 = k then (k0, v) :: rest else (k0, v0) :: pyDictInsert rest k v

/-- Python `dict(pairs)`: keys ordered by first occurrence, later values win. -/
def pyDictOf {α β : Type} [DecidableEq α] (l : List (α × β)) : List (α × β) :=
  l.foldl (fun m kv => pyDictInsert m kv.1 kv.2) []

/-! ## Reconstruction (`BaseTranslator._reconstruct_data`) -/

/-- Model of `_reconstruct_data`: with no paths return the original itself;
otherwise deep-copy, build the translations dict, and apply each assignment in
dict insertion order.  `none` models an uncaught exception. -/
def reconstructData (originalData : TV) (translatedStrings : List String)
    (paths : List (List Tok)) : Option TV :=
  if paths.isEmpty then some originalData
  else
    let result := deepCopyTV originalData
    let translations := pyDictOf (paths.zip translatedStrings)
    translations.foldlM (fun acc pv => setPath acc pv.1 pv.2) result

/-! ## Shape and well-formedness -/

mutual
/-- The shape of a tree value: keys, sequence lengths and non-string leaves
are kept, string leaf contents are blanked.  Two trees have identical key
sets, sequence lengths and non-string leaf values exactly when their shapes
are equal. -/
def shapeOfTV : TV → TV
  | .null => .null
  | .boolv b => .boolv b
  | .numv n => .numv n
  | .strv _ => .strv ""
  | .seqv xs => .seqv (shapeOfTVs xs)
  | .mapv kvs => .mapv (shapeOfTVm kvs)
/-- Shape of a sequence. -/
def shapeOfTVs : TVs → TVs
  | .nil => .nil
  | .cons x xs => .cons (shapeOfTV x) (shapeOfTVs xs)
/-- Shape of a mapping. -/
def shapeOfTVm : TVm → TVm
  | .nil => .nil
  | .cons k v kvs => .cons k (shapeOfTV v) (shapeOfTVm kvs)
end

mutual
/-- Well-formedness: every mapping has pairwise distinct keys, as every tree
of Python dicts does. -/
def wfTV : TV → Bool
  | .null => true
  | .boolv _ => true
  | .numv _ => true
  | .strv _ => true
  | .seqv xs => wfTVs xs
  | .mapv kvs => wfTVm kvs
/-- Well-formedness of every element of a sequence. -/
def wfTVs : TVs → Bool
  | .nil => true
  | .cons x xs => wfTV x && wfTVs xs
/-- Well-formedness of a mapping: the head key is fresh and all values are
well-formed. -/
def wfTVm : TVm → Bool
  | .nil => true
  | .cons k v rest => !(rest.keys.contains k) && wfTV v && wfTVm rest
end

/-! ## Basic lemmas about the tree operations -/

mutual
theorem deepCopyTV_id : ∀ v : TV, deepCopyTV v = v
  | .null => rfl
  | .boolv _ => rfl
  | .numv _ => rfl
  | .strv _ => rfl
  | .seqv xs => by rw [deepCopyTV, deepCopyTVs_id]
  | .mapv kvs => by rw [deepCopyTV, deepCopyTVm_id]
theorem deepCopyTVs_id : ∀ xs : TVs, deepCopyTVs xs = xs
  | .nil => rfl
  | .cons x xs => by rw [deepCopyTVs, deepCopyTV_id, deepCopyTVs_id]
theorem deepCopyTVm_id : ∀ kvs : TVm, deepCopyTVm kvs = kvs
  | .nil => rfl
  | .cons k v kvs => by rw [deepCopyTVm, deepCopyTV_id, deepCopyTVm_id]
end

theorem getPath_append (p q : List Tok) :
    ∀ v : TV, getPath v (p ++ q) = (getPath v p).bind (fun c => getPath c q) := by
  induction p with
  | nil => intro v; simp [getPath]
  | cons t rest ih =>
    intro v
    simp only [List.cons_append, getPath]
    cases v.getTok t with
    | none => simp
    | some c => simpa using ih c

theorem TVm.lookup_mem_keys : ∀ {kvs : TVm} {k : String} {v : TV},
    kvs.lookup k = some v → k ∈ kvs.keys
  | .nil, k, v, h => by simp [TVm.lookup] at h
  | .cons k0 v0 rest, k, v, h => by
    rw [TVm.lookup] at h
    by_cases hk : k0 = k
    · subst hk; exact List.mem_cons_self _ _
    · rw [if_neg hk] at h
      exact List.mem_cons_of_mem _ (TVm.lookup_mem_keys h)

theorem TVm.lookup_setKey_found (u : TV) : ∀ {kvs : TVm} {k : String} {w : TV},
    kvs.lookup k = some w → (kvs.setKey k u).lookup k = some u
  | .nil, k, w, h => by simp [TVm.lookup] at h
  | .cons k0 v0 rest, k, w, h => by
    rw [TVm.lookup] at h
    by_cases hk : k0 = k
    · simp [TVm.setKey, hk, TVm.lookup]
    · rw [if_neg hk] at h
      simp only [TVm.setKey, if_neg hk, TVm.lookup]
      exact TVm.lookup_setKey_found u h

theorem TVm.lookup_setKey_other (u : TV) {k k' : String} (hne : k' ≠ k) :
    ∀ (kvs : TVm), (kvs.setKey k u).lookup k' = kvs.lookup k'
  | .nil => by
    simp only [TVm.setKey, TVm.lookup]
    rw [if_neg (fun h => hne h.symm)]
  | .cons k0 v0 rest => by
    by_cases hk : k0 = k
    · subst hk
      simp only [TVm.setKey, if_pos rfl, TVm.lookup]
      rw [if_neg (fun h => hne h.symm), if_neg (fun h => hne h.symm)]
    · simp only [TVm.setKey, if_neg hk, TVm.lookup]
      by_cases h0 : k0 = k'
      · rw [if_pos h0, if_pos h0]
      · rw [if_neg h0, if_neg h0]
        exact TVm.lookup_setKey_other u hne rest

theorem TVm.shape_setKey (u : TV) : ∀ {kvs : TVm} {k : String} {w : TV},
    kvs.lookup k = some w → shapeOfTV u = shapeOfTV w →
    shapeOfTVm (kvs.setKey k u) = shapeOfTVm kvs
  | .nil, k, w, h, _ => by simp [TVm.lookup] at h
  | .cons k0 v0 rest, k, w, h, hsh => by
    rw [TVm.lookup] at h
    by_cases hk : k0 = k
    · rw [if_pos hk] at h
      cases h
      simp [TVm.setKey, hk, shapeOfTVm, hsh]
    · rw [if_neg hk] at h
      simp [TVm.setKey, hk, shapeOfTVm, TVm.shape_setKey u h hsh]

theorem TVs.get?_lt_length : ∀ {xs : TVs} {i : Nat} {v : TV},
    xs.get? i = some v → i < xs.length
  | .nil, i, v, h => by simp [TVs.get?] at h
  | .cons x rest, 0, v, _ => by rw [TVs.length]; omega
  | .cons x rest, n + 1, v, h => by
    rw [TVs.get?] at h
    have := TVs.get?_lt_length h
    rw [TVs.length]
    omega

theorem TVs.get?_set_self (u : TV) : ∀ {xs : TVs} {i : Nat} {w : TV},
    xs.get? i = some w → (xs.set i u).get? i = some u
  | .nil, i, w, h => by simp [TVs.get?] at h
  | .cons x rest, 0, w, _ => rfl
  | .cons x rest, n + 1, w, h => by
    rw [TVs.get?] at h
    simpa [TVs.set, TVs.get?] using TVs.get?_set_self u h

theorem TVs.get?_set_other (u : TV) : ∀ (xs : TVs) {i j : Nat}, j ≠ i →
    (xs.set i u).get? j = xs.get? j
  | .nil, i, j, _ => by cases i <;> rfl
  | .cons x rest, 0, 0, hne => absurd rfl hne
  | .cons x rest, 0, m + 1, _ => rfl
  | .cons x rest, n + 1, 0, _ => rfl
  | .cons x rest, n + 1, m + 1, hne => by
    simp only [TVs.set, TVs.get?]
    exact TVs.get?_set_other u rest (fun h => hne (by omega))

theorem TVs.shape_set (u : TV) : ∀ {xs : TVs} {i : Nat} {w : TV},
    xs.get? i = some w → shapeOfTV u = shapeOfTV w →
    shapeOfTVs (xs.set i u) = shapeOfTVs xs
  | .nil, i, w, h, _ => by simp [TVs.get?] at h
  | .cons x rest, 0, w, h, hsh => by
    rw [TVs.get?] at h
    cases h
    simp [TVs.set, shapeOfTVs, hsh]
  | .cons x rest, n + 1, w, h, hsh => by
    rw [TVs.get?] at h
    simp [TVs.set, shapeOfTVs, TVs.shape_set u h hsh]

theorem getPath_nil (v : TV) : getPath v [] = some v := rfl

theorem getPath_cons (v : TV) (t : Tok) (p : List Tok) :
    getPath v (t :: p) = (v.getTok t).bind (fun c => getPath c p) := by
  cases h : v.getTok t <;> simp [getPath, h]

theorem setPath_one (v : TV) (t : Tok) (s : String) :
    setPath v [t] s = v.setTok t s := rfl

theorem setPath_cons₂ (v : TV) (t t' : Tok) (rest : List Tok) (s : String) :
    setPath v (t :: t' :: rest) s =
      (v.getTok t).bind (fun c =>
        (setPath c (t' :: rest) s).bind (fun c' => some (v.updTok t c'))) := by
  cases h : v.getTok t with
  | none => simp [setPath, h]
  | some c =>
    cases h2 : setPath c (t' :: rest) s <;> simp [setPath, h, h2]

theorem TV.updTok_getTok_self {v c : TV} {tok : Tok} (c' : TV)
    (h : v.getTok tok = some c) : (v.updTok tok c').getTok tok = some c' := by
  cases v <;> cases tok <;> simp [TV.getTok] at h ⊢ <;> simp [TV.updTok, TV.getTok]
  · exact TVs.get?_set_self c' h
  · exact TVm.lookup_setKey_found c' h

theorem TV.updTok_getTok_other {v : TV} {tok u : Tok} (c' : TV)
    (hne : u ≠ tok) : (v.updTok tok c').getTok u = v.getTok u := by
  cases v <;> cases tok <;> simp [TV.updTok] <;> cases u <;> simp [TV.getTok]
  · exact TVs.get?_set_other c' _ (fun h => hne (congrArg Tok.idx h))
  · exact TVm.lookup_setKey_other c' (fun h => hne (congrArg Tok.key h)) _

theorem TV.updTok_shape {v c : TV} {tok : Tok} (c' : TV)
    (h : v.getTok tok = some c) (hsh : shapeOfTV c' = shapeOfTV c) :
    shapeOfTV (v.updTok tok c') = shapeOfTV v := by
  cases v <;> cases tok <;> simp [TV.getTok] at h ⊢ <;> simp [TV.updTok, shapeOfTV]
  · exact TVs.shape_set c' h hsh
  · exact TVm.shape_setKey c' h hsh

/-- The workhorse fact about reconstruction at one path: if `p` is a nonempty
path to a string leaf, the assignment succeeds, preserves the shape, writes
the new string at `p`, and changes nothing at any path that neither extends
nor is extended by `p`. -/
theorem setPath_correct (t : String) : ∀ (p : List Tok) (v : TV) (s₀ : String),
    getPath v p = some (.strv s₀) → p ≠ [] →
    ∃ v', setPath v p t = some v' ∧
      shapeOfTV v' = shapeOfTV v ∧
      getPath v' p = some (.strv t) ∧
      ∀ q : List Tok, ¬ p <+: q → ¬ q <+: p → getPath v' q = getPath v q
  | [], _, _, _, hne => absurd rfl hne
  | [tok], v, s₀, h, _ => by
    rw [getPath_cons] at h
    have hg : v.getTok tok = some (.strv s₀) := by
      cases hgt : v.getTok tok with
      | none => rw [hgt] at h; exact absurd h (by simp)
      | some c =>
        rw [hgt] at h
        simp only [Option.some_bind, getPath_nil] at h
        rw [h]
    match v, tok with
    | .mapv kvs, .key k =>
      simp only [TV.getTok] at hg
      refine ⟨.mapv (kvs.setKey k (.strv t)), by simp [setPath_one, TV.setTok], ?_, ?_, ?_⟩
      · simp only [shapeOfTV]
        rw [TVm.shape_setKey (.strv t) hg rfl]
      · rw [getPath_cons]
        simp only [TV.getTok, TVm.lookup_setKey_found (TV.strv t) hg, Option.some_bind]
        exact getPath_nil _
      · intro q hpq hqp
        match q with
        | [] => exact absurd (List.nil_prefix) hqp
        | u :: q' =>
          have hne : u ≠ Tok.key k := by
            intro hu
            subst hu
            exact hpq ⟨q', rfl⟩
          have heq : TV.getTok (.mapv (kvs.setKey k (.strv t))) u = TV.getTok (.mapv kvs) u := by
            cases u with
            | key k' =>
              simp only [TV.getTok]
              exact TVm.lookup_setKey_other (.strv t) (fun h => hne (congrArg Tok.key h)) kvs
            | idx j => rfl
          rw [getPath_cons, getPath_cons, heq]
    | .seqv xs, .idx i =>
      simp only [TV.getTok] at hg
      have hlt : i < xs.length := TVs.get?_lt_length hg
      refine ⟨.seqv (xs.set i (.strv t)), by simp [setPath_one, TV.setTok, hlt], ?_, ?_, ?_⟩
      · simp only [shapeOfTV]
        rw [TVs.shape_set (.strv t) hg rfl]
      · rw [getPath_cons]
        simp only [TV.getTok, TVs.get?_set_self (TV.strv t) hg, Option.some_bind]
        exact getPath_nil _
      · intro q hpq hqp
        match q with
        | [] => exact absurd (List.nil_prefix) hqp
        | u :: q' =>
          have hne : u ≠ Tok.idx i := by
            intro hu
            subst hu
            exact hpq ⟨q', rfl⟩
          have heq : TV.getTok (.seqv (xs.set i (.strv t))) u = TV.getTok (.seqv xs) u := by
            cases u with
            | key k' => rfl
            | idx j =>
              simp only [TV.getTok]
              exact TVs.get?_set_other (.strv t) xs (fun h => hne (congrArg Tok.idx h))
          rw [getPath_cons, getPath_cons, heq]
  | tok :: tok' :: rest, v, s₀, h, _ => by
    rw [getPath_cons] at h
    cases hgt : v.getTok tok with
    | none => rw [hgt] at h; exact absurd h (by simp)
    | some child =>
      rw [hgt] at h
      simp only [Option.some_bind] at h
      obtain ⟨c', hset, hshape, hget, hloc⟩ :=
        setPath_correct t (tok' :: rest) child s₀ h (by simp)
      refine ⟨v.updTok tok c', ?_, ?_, ?_, ?_⟩
      · rw [setPath_cons₂, hgt]
        simp only [Option.some_bind]
        rw [hset]
        rfl
      · exact TV.updTok_shape c' hgt hshape
      · rw [getPath_cons, TV.updTok_getTok_self c' hgt]
        simpa using hget
      · intro q hpq hqp
        match q with
        | [] => exact absurd (List.nil_prefix) hqp
        | u :: q' =>
          by_cases hu : u = tok
          · subst hu
            have hpq' : ¬ (tok' :: rest) <+: q' := by
              intro ⟨r, hr⟩
              exact hpq ⟨r, by simp [← hr]⟩
            have hqp' : ¬ q' <+: (tok' :: rest) := by
              intro ⟨r, hr⟩
              exact hqp ⟨r, by simp [← hr]⟩
            rw [getPath_cons, getPath_cons, TV.updTok_getTok_self c' hgt, hgt]
            simp only [Option.some_bind]
            exact hloc q' hpq' hqp'
          · rw [getPath_cons, getPath_cons, TV.updTok_getTok_other c' hu]

/-! ## Shape transfer -/

theorem TVm.lookup_shape : ∀ (kvs : TVm) (k : String),
    (shapeOfTVm kvs).lookup k = (kvs.lookup k).map shapeOfTV
  | .nil, _ => rfl
  | .cons k0 v rest, k => by
    by_cases h : k0 = k <;>
      simp [shapeOfTVm, TVm.lookup, h, TVm.lookup_shape rest k]

theorem TVs.get?_shape : ∀ (xs : TVs) (i : Nat),
    (shapeOfTVs xs).get? i = (xs.get? i).map shapeOfTV
  | .nil, _ => rfl
  | .cons _ _, 0 => rfl
  | .cons _ rest, n + 1 => by simp [shapeOfTVs, TVs.get?, TVs.get?_shape rest n]

theorem TV.getTok_shape (v : TV) (tok : Tok) :
    (shapeOfTV v).getTok tok = (v.getTok tok).map shapeOfTV := by
  cases v <;> cases tok <;> simp [shapeOfTV, TV.getTok]
  · exact TVs.get?_shape _ _
  · exact TVm.lookup_shape _ _

theorem getPath_shape : ∀ (p : List Tok) (v : TV),
    getPath (shapeOfTV v) p = (getPath v p).map shapeOfTV := by
  intro p
  induction p with
  | nil => intro v; simp [getPath_nil]
  | cons t rest ih =>
    intro v
    rw [getPath_cons, getPath_cons, TV.getTok_shape]
    cases v.getTok t with
    | none => simp
    | some c => simpa using ih c

theorem shape_strv_inv : ∀ {w : TV}, shapeOfTV w = .strv "" → ∃ s, w = .strv s := by
  intro w h
  cases w <;> simp only [shapeOfTV] at h
  · exact TV.noConfusion h
  · exact TV.noConfusion h
  · exact TV.noConfusion h
  · exact ⟨_, rfl⟩
  · exact TV.noConfusion h
  · exact TV.noConfusion h

/-- Scalar, non-string leaves. -/
def isNonStringScalar : TV → Bool
  | .null => true
  | .boolv _ => true
  | .numv _ => true
  | _ => false

theorem shapeOf_scalar {v : TV} (hv : isNonStringScalar v = true) :
    shapeOfTV v = v := by
  cases v <;> simp [isNonStringScalar] at hv <;> rfl

theorem shape_eq_scalar {w v : TV} (hv : isNonStringScalar v = true)
    (h : shapeOfTV w = v) : w = v := by
  cases w <;> simp only [shapeOfTV] at h <;> subst h <;>
    first
      | rfl
      | simp [isNonStringScalar] at hv

theorem getPath_strv_transfer {R D : TV} (hsh : shapeOfTV R = shapeOfTV D)
    {p : List Tok} {s : String} (h : getPath D p = some (.strv s)) :
    ∃ s', getPath R p = some (.strv s') := by
  have h1 : getPath (shapeOfTV R) p = some (.strv "") := by
    rw [hsh, getPath_shape, h]
    rfl
  rw [getPath_shape] at h1
  cases hr : getPath R p with
  | none => rw [hr] at h1; exact absurd h1 (by simp)
  | some w =>
    rw [hr] at h1
    simp only [Option.map_some', Option.some.injEq] at h1
    obtain ⟨s', rfl⟩ := shape_strv_inv h1
    exact ⟨s', rfl⟩

theorem getPath_scalar_transfer {R D : TV} (hsh : shapeOfTV R = shapeOfTV D)
    {p : List Tok} {v : TV} (hv : isNonStringScalar v = true)
    (h : getPath D p = some v) : getPath R p = some v := by
  have h1 : getPath (shapeOfTV R) p = some v := by
    rw [hsh, getPath_shape, h, Option.map_some', shapeOf_scalar hv]
  rw [getPath_shape] at h1
  cases hr : getPath R p with
  | none => rw [hr] at h1; exact absurd h1 (by simp)
  | some w =>
    rw [hr] at h1
    simp only [Option.map_some', Option.some.injEq] at h1
    rw [shape_eq_scalar hv h1]

theorem strv_path_prefix_eq {v : TV} {p q : List Tok} {a b : String}
    (hp : getPath v p = some (.strv a)) (hq : getPath v q = some (.strv b))
    (hpre : p <+: q) : p = q := by
  obtain ⟨r, rfl⟩ := hpre
  rw [getPath_append, hp, Option.some_bind] at hq
  cases r with
  | nil => rw [List.append_nil]
  | cons u r' =>
    rw [getPath_cons] at hq
    simp [TV.getTok] at hq

/-! ## Validity of collected paths -/

mutual
theorem collectGo_valid (ex : List String) :
    ∀ (cur : TV) (path : List Tok), wfTV cur = true →
    ∀ e ∈ collectGo ex cur path,
      ∃ q, e.1 = path ++ q ∧ getPath cur q = some (.strv e.2) ∧
        shouldTranslateString e.2 = true
  | .null, path, _, e, he => by
    rw [collectGo] at he
    split at he <;> simp at he
  | .boolv b, path, _, e, he => by
    rw [collectGo] at he
    split at he <;> simp at he
  | .numv n, path, _, e, he => by
    rw [collectGo] at he
    split at he <;> simp at he
  | .strv s, path, _, e, he => by
    rw [collectGo] at he
    split at he
    · simp at he
    · by_cases hts : shouldTranslateString s = true
      · rw [if_pos hts] at he
        have he' : e = (path, s) := by simpa using he
        subst he'
        exact ⟨[], by simp, by rw [getPath_nil], hts⟩
      · rw [if_neg hts] at he
        simp at he
  | .mapv kvs, path, hwf, e, he => by
    rw [collectGo] at he
    split at he
    · simp at he
    · rw [wfTV] at hwf
      obtain ⟨k, v, q, hlk, hp, hg, hts⟩ := collectMap_valid ex kvs path hwf e he
      refine ⟨Tok.key k :: q, hp, ?_, hts⟩
      rw [getPath_cons]
      simp only [TV.getTok, hlk, Option.some_bind]
      exact hg
  | .seqv xs, path, hwf, e, he => by
    rw [collectGo] at he
    split at he
    · simp at he
    · rw [wfTV] at hwf
      obtain ⟨j, x, q, hget, hp, hg, hts⟩ := collectSeq_valid ex xs path 0 hwf e he
      refine ⟨Tok.idx j :: q, by simpa using hp, ?_, hts⟩
      rw [getPath_cons]
      simp only [TV.getTok, hget, Option.some_bind]
      exact hg
theorem collectMap_valid (ex : List String) :
    ∀ (kvs : TVm) (path : List Tok), wfTVm kvs = true →
    ∀ e ∈ collectMap ex kvs path,
      ∃ k v q, kvs.lookup k = some v ∧ e.1 = path ++ Tok.key k :: q ∧
        getPath v q = some (.strv e.2) ∧ shouldTranslateString e.2 = true
  | .nil, path, _, e, he => by rw [collectMap] at he; simp at he
  | .cons k v rest, path, hwf, e, he => by
    rw [collectMap] at he
    rw [wfTVm] at hwf
    simp only [Bool.and_eq_true, Bool.not_eq_true'] at hwf
    obtain ⟨⟨hkfresh, hwfv⟩, hwfrest⟩ := hwf
    rcases List.mem_append.mp he with h | h
    · obtain ⟨q, hp, hg, hts⟩ := collectGo_valid ex v (path ++ [Tok.key k]) hwfv e h
      refine ⟨k, v, q, by simp [TVm.lookup], ?_, hg, hts⟩
      rw [hp]
      simp
    · obtain ⟨k', v', q, hlk, hp, hg, hts⟩ := collectMap_valid ex rest path hwfrest e h
      have hne : k ≠ k' := by
        intro hkk
        subst hkk
        have : k ∈ rest.keys := TVm.lookup_mem_keys hlk
        rw [List.contains_eq_any_beq] at hkfresh
        have := List.any_eq_false.mp hkfresh k this
        simp at this
      refine ⟨k', v', q, ?_, hp, hg, hts⟩
      rw [TVm.lookup, if_neg hne]
      exact hlk
theorem collectSeq_valid (ex : List String) :
    ∀ (xs : TVs) (path : List Tok) (i : Nat), wfTVs xs = true →
    ∀ e ∈ collectSeq ex xs path i,
      ∃ j x q, xs.get? j = some x ∧ e.1 = path ++ Tok.idx (i + j) :: q ∧
        getPath x q = some (.strv e.2) ∧ shouldTranslateString e.2 = true
  | .nil, path, i, _, e, he => by rw [collectSeq] at he; simp at he
  | .cons x rest, path, i, hwf, e, he => by
    rw [collectSeq] at he
    rw [wfTVs] at hwf
    simp only [Bool.and_eq_true] at hwf
    obtain ⟨hwfx, hwfrest⟩ := hwf
    rcases List.mem_append.mp he with h | h
    · obtain ⟨q, hp, hg, hts⟩ := collectGo_valid ex x (path ++ [Tok.idx i]) hwfx e h
      refine ⟨0, x, q, rfl, ?_, hg, hts⟩
      rw [hp]
      simp
    · obtain ⟨j', x', q, hget, hp, hg, hts⟩ := collectSeq_valid ex rest path (i + 1) hwfrest e h
      refine ⟨j' + 1, x', q, by rw [TVs.get?]; exact hget, ?_, hg, hts⟩
      rw [hp]
      have : i + 1 + j' = i + (j' + 1) := by omega
      rw [this]
end

theorem collect_valid {D : TV} {ex : List String} (hwf : wfTV D = true) :
    ∀ e ∈ collectTranslatableStrings D ex,
      getPath D e.1 = some (.strv e.2) ∧ shouldTranslateString e.2 = true := by
  intro e he
  obtain ⟨q, hp, hg, hts⟩ := collectGo_valid ex D [] hwf e he
  rw [hp]
  simpa using ⟨hg, hts⟩

/-! ## The reconstruction fold -/

theorem foldSetPath_ok :
    ∀ (pvs : List (List Tok × String)) (D R₀ : TV),
    shapeOfTV R₀ = shapeOfTV D →
    (∀ pv ∈ pvs, pv.1 ≠ [] ∧ ∃ s₀, getPath D pv.1 = some (.strv s₀)) →
    ∃ R, List.foldlM (fun acc pv => setPath acc pv.1 pv.2) R₀ pvs = some R ∧
      shapeOfTV R = shapeOfTV D ∧
      ∀ q s, getPath R₀ q = some (.strv s) → (∀ pv ∈ pvs, pv.1 ≠ q) →
        getPath R q = some (.strv s)
  | [], _, R₀, hsh, _ => ⟨R₀, by simp, hsh, fun _ _ hq _ => hq⟩
  | pv :: pvs, D, R₀, hsh, hpts => by
    obtain ⟨hne, s₀, hD⟩ := hpts pv (List.mem_cons_self _ _)
    obtain ⟨s₁, hR₀⟩ := getPath_strv_transfer hsh hD
    obtain ⟨R₁, hset, hsh₁, _, hloc₁⟩ := setPath_correct pv.2 pv.1 R₀ s₁ hR₀ hne
    obtain ⟨R, hfold, hshR, hpres⟩ := foldSetPath_ok pvs D R₁ (hsh₁.trans hsh)
      (fun pv' hm => hpts pv' (List.mem_cons_of_mem _ hm))
    refine ⟨R, ?_, hshR, ?_⟩
    · rw [List.foldlM_cons, hset]
      simpa using hfold
    · intro q s hq hnot
      have hqne : pv.1 ≠ q := hnot pv (List.mem_cons_self _ _)
      have hdiv1 : ¬ pv.1 <+: q := fun hpre =>
        hqne (strv_path_prefix_eq hR₀ hq hpre)
      have hdiv2 : ¬ q <+: pv.1 := fun hpre =>
        hqne (strv_path_prefix_eq hq hR₀ hpre).symm
      have hq₁ : getPath R₁ q = some (.strv s) := by
        rw [hloc₁ q hdiv1 hdiv2]
        exact hq
      exact hpres q s hq₁ (fun pv' hm => hnot pv' (List.mem_cons_of_mem _ hm))

/-! ## Keys of Python dicts built from pairs -/

theorem pyDictInsert_keys {α β : Type} [DecidableEq α] :
    ∀ (m : List (α × β)) (k : α) (v : β) (a : α),
    a ∈ (pyDictInsert m k v).map Prod.fst → a ∈ m.map Prod.fst ∨ a = k
  | [], k, v, a, ha => by
    simp [pyDictInsert] at ha
    right
    exact ha
  | (k0, v0) :: rest, k, v, a, ha => by
    rw [pyDictInsert] at ha
    by_cases h : k0 = k
    · rw [if_pos h] at ha
      simp only [List.map_cons, List.mem_cons] at ha
      rcases ha with h1 | h1
      · left; simp [h1]
      · left; simp only [List.map_cons, List.mem_cons]; right; exact h1
    · rw [if_neg h] at ha
      simp only [List.map_cons, List.mem_cons] at ha
      rcases ha with h1 | h1
      · left; simp [h1]
      · rcases pyDictInsert_keys rest k v a h1 with h2 | h2
        · left; simp only [List.map_cons, List.mem_cons]; right; exact h2
        · right; exact h2

theorem pyDictOf_keys_aux {α β : Type} [DecidableEq α] :
    ∀ (l : List (α × β)) (acc : List (α × β)) (a : α),
    a ∈ (l.foldl (fun m kv => pyDictInsert m kv.1 kv.2) acc).map Prod.fst →
    a ∈ acc.map Prod.fst ∨ a ∈ l.map Prod.fst
  | [], acc, a, ha => by
    left
    simpa using ha
  | kv :: l, acc, a, ha => by
    rw [List.foldl_cons] at ha
    rcases pyDictOf_keys_aux l _ a ha with h | h
    · rcases pyDictInsert_keys acc kv.1 kv.2 a h with h1 | h1
      · left; exact h1
      · right; simp [h1]
    · right
      simp only [List.map_cons, List.mem_cons]
      right
      exact h

theorem pyDictOf_keys {α β : Type} [DecidableEq α] (l : List (α × β)) (a : α) :
    a ∈ (pyDictOf l).map Prod.fst → a ∈ l.map Prod.fst := by
  intro ha
  rcases pyDictOf_keys_aux l [] a ha with h | h
  · simp at h
  · exact h

theorem zip_fst_mem {α β : Type} {l1 : List α} {l2 : List β} {a : α}
    (h : a ∈ (l1.zip l2).map Prod.fst) : a ∈ l1 := by
  obtain ⟨pr, hpr, rfl⟩ := List.mem_map.mp h
  exact (List.of_mem_zip hpr).1

/-! ## C1: shape preservation for `reconstruct ∘ collect` -/

/-- C1 counterexample: for the tree that is a bare translatable string,
collection yields the empty path and reconstruction with it crashes
(`path[-1]` on an empty tuple raises IndexError, modelled as `none`), so the
claimed identity of key sets/lengths/non-string leaves does not even get a
result tree.  The claim as universally stated over all tree values fails
here. -/
theorem reconstruct_root_string_fails :
    collectTranslatableStrings (.strv "hello") [] = [([], "hello")] ∧
    reconstructData (.strv "hello") ["X"]
      ((collectTranslatableStrings (.strv "hello") []).map Prod.fst) = none :=
  ⟨rfl, rfl⟩

/-- C1 (amended): for every well-formed tree whose root is not itself a
translatable string, reconstructing with the collected paths and a
same-length translation list succeeds and yields a tree of identical shape
(same keys, same sequence lengths, same non-string leaf values); every
non-string scalar leaf is preserved verbatim, and every string leaf whose
path was not collected is preserved verbatim. -/
theorem reconstruct_shape_preservation
    (D : TV) (ex : List String) (translated : List String)
    (hwf : wfTV D = true)
    (_hlen : translated.length = (collectTranslatableStrings D ex).length)
    (hroot : ∀ s, D = TV.strv s → shouldTranslateString s = false) :
    ∃ R, reconstructData D translated
        ((collectTranslatableStrings D ex).map Prod.fst) = some R ∧
      shapeOfTV R = shapeOfTV D ∧
      (∀ q v, getPath D q = some v → isNonStringScalar v = true →
        getPath R q = some v) ∧
      (∀ q s, getPath D q = some (.strv s) →
        q ∉ (collectTranslatableStrings D ex).map Prod.fst →
        getPath R q = some (.strv s)) := by
  by_cases hCe : ((collectTranslatableStrings D ex).map Prod.fst).isEmpty = true
  · refine ⟨D, ?_, rfl, fun q v h _ => h, fun q s h _ => h⟩
    rw [reconstructData, if_pos hCe]
  · have hkey : ∀ pv ∈ pyDictOf
        (((collectTranslatableStrings D ex).map Prod.fst).zip translated),
        pv.1 ≠ [] ∧ ∃ s₀, getPath D pv.1 = some (.strv s₀) := by
      intro pv hm
      have h1 : pv.1 ∈ (pyDictOf
          (((collectTranslatableStrings D ex).map Prod.fst).zip translated)).map
            Prod.fst := List.mem_map_of_mem Prod.fst hm
      have h2 : pv.1 ∈ (collectTranslatableStrings D ex).map Prod.fst :=
        zip_fst_mem (pyDictOf_keys _ _ h1)
      obtain ⟨e, he, hfst⟩ := List.mem_map.mp h2
      obtain ⟨hg, hts⟩ := collect_valid hwf e he
      constructor
      · intro hnil
        have h3 : e.1 = [] := hfst.trans hnil
        rw [h3, getPath_nil] at hg
        have hD : D = TV.strv e.2 := by injection hg
        rw [hroot e.2 hD] at hts
        exact Bool.noConfusion hts
      · exact ⟨e.2, hfst ▸ hg⟩
    obtain ⟨R, hfold, hsh, hpres⟩ := foldSetPath_ok _ D D rfl hkey
    refine ⟨R, ?_, hsh, ?_, ?_⟩
    · rw [reconstructData, if_neg hCe]
      show List.foldlM _ (deepCopyTV D) _ = some R
      rw [deepCopyTV_id]
      exact hfold
    · intro q v hq hscal
      exact getPath_scalar_transfer hsh hscal hq
    · intro q s hq hnot
      refine hpres q s hq ?_
      intro pv hm heq
      have h1 : pv.1 ∈ (pyDictOf _).map Prod.fst := List.mem_map_of_mem Prod.fst hm
      have h2 := zip_fst_mem (pyDictOf_keys _ _ h1)
      exact hnot (heq ▸ h2)

/-- Witness for `reconstruct_shape_preservation` on the concrete tree
`{"a": "hello", "secret": {"b": "world"}}` with exclude set `{"secret"}`. -/
theorem reconstruct_shape_preservation_witness :
    ∃ R, reconstructData exampleSecretTree ["bonjour"]
        ((collectTranslatableStrings exampleSecretTree ["secret"]).map Prod.fst)
          = some R ∧
      shapeOfTV R = shapeOfTV exampleSecretTree ∧
      (∀ q v, getPath exampleSecretTree q = some v → isNonStringScalar v = true →
        getPath R q = some v) ∧
      (∀ q s, getPath exampleSecretTree q = some (.strv s) →
        q ∉ (collectTranslatableStrings exampleSecretTree ["secret"]).map Prod.fst →
        getPath R q = some (.strv s)) :=
  reconstruct_shape_preservation exampleSecretTree ["secret"] ["bonjour"]
    (by decide) (by decide) (fun s h => nomatch h)

/-- C2: exclusion is inherited downward — no collected path carries an excluded
token, and on `{"a": "hello", "secret": {"b": "world"}}` with exclude set
`{"secret"}` collection yields exactly the one entry for path `["a"]`. -/
theorem collect_excludes_inherited :
    (∀ (data : TV) (ex : List String),
      ∀ e ∈ collectTranslatableStrings data ex, ∀ t ∈ e.1,
        ex.contains t.str = false) ∧
    collectTranslatableStrings exampleSecretTree ["secret"] =
      [([Tok.key "a"], "hello")] := by
  constructor
  · intro data ex e he t ht
    exact collectGo_no_excluded ex data [] e he t ht
  · rfl

/-- Witness for `collect_excludes_inherited` at the example tree: the sole
collected entry's tokens avoid the exclude set. -/
theorem collect_excludes_inherited_witness :
    ∀ t ∈ [Tok.key "a"], List.contains ["secret"] t.str = false := by
  intro t ht
  have h := collect_excludes_inherited.1 exampleSecretTree ["secret"]
    ([Tok.key "a"], "hello")
    (by rw [collect_excludes_inherited.2]; exact List.mem_singleton.mpr rfl)
  exact h t ht

/-! ## Literal-alternation regex substitution (the compiled glossary patterns)

Both `terms.py` (`GLOSSARY_PATTERN.sub`) and `translation.py`
(`self._compiled_pattern.sub`) substitute over a case-insensitive alternation
of escaped literal terms guarded by boundary lookarounds.  `re.sub` scans left
to right; at each position the alternatives are tried in pattern order and the
first alternative whose literal and both boundaries fit is taken; the scan
resumes after the matched span.  The two boundary styles are `\b...\b`
(`terms.py`) and `(?:(?<=\s)|^)...(?=\s|$)` (`translation.py`). -/

/-- Case-insensitive equality of character lists (`re.IGNORECASE` over
escaped literals). -/
def ciEq (a b : List Char) : Bool :=
  lowerChars a == lowerChars b

/-- Whether an optional character is a regex word character (absent counts as
non-word, as at the ends of the text). -/
def optIsWord : Option Char → Bool
  | none => false
  | some c => isWordChar c

/-- The two boundary styles used by the two compiled patterns. -/
inductive BoundaryStyle where
  | word
  | space
  deriving Repr, DecidableEq

/-- The pre-match boundary: `\b` for `word`, `(?:(?<=\s)|^)` for `space`. -/
def boundaryBeforeOk : BoundaryStyle → Option Char → List Char → Bool
  | .word, prev, s => optIsWord prev != optIsWord s.head?
  | .space, prev, _ =>
    match prev with
    | none => true
    | some c => pyIsSpace c

/-- The post-match boundary: `\b` for `word`, `(?=\s|$)` for `space`. -/
def boundaryAfterOk : BoundaryStyle → List Char → Option Char → Bool
  | .word, span, next => optIsWord span.getLast? != optIsWord next
  | .space, _, next =>
    match next with
    | none => true
    | some c => pyIsSpace c

/-- One alternative tried at one position: the literal must fit
case-insensitively and both boundaries must hold.  Empty terms never occur
(empty sources are filtered before pattern compilation). -/
def termMatchesAt (style : BoundaryStyle) (prev : Option Char) (s : List Char)
    (term : List Char) : Bool :=
  !term.isEmpty && decide (term.length ≤ s.length) &&
    ciEq (s.take term.length) term &&
    boundaryBeforeOk style prev s &&
    boundaryAfterOk style (s.take term.length) (s.drop term.length).head?

/-- The alternation at one position: first alternative in pattern order that
fits, if any. -/
def tryMatchTerm (style : BoundaryStyle) (terms : List (List Char))
    (prev : Option Char) (s : List Char) : Option (List Char) :=
  terms.find? (termMatchesAt style prev s)

/-- The `re.sub` scan with explicit fuel (one unit per loop step; the wrapper
supplies `s.length`, which always suffices since every step consumes at least
one character). -/
def subScanF (style : BoundaryStyle) (terms : List (List Char))
    (repl : List Char → Option Char → List Char) :
    Nat → Option Char → List Char → List Char
  | 0, _, s => s
  | _ + 1, _, [] => []
  | fuel + 1, prev, c :: cs =>
    match tryMatchTerm style terms prev (c :: cs) with
    | some t =>
      let span := (c :: cs).take t.length
      let rest := (c :: cs).drop t.length
      repl span rest.head? ++ subScanF style terms repl fuel span.getLast? rest
    | none => c :: subScanF style terms repl fuel (some c) cs

/-- `pattern.sub(repl, text)` for a literal alternation pattern. -/
def pySub (style : BoundaryStyle) (terms : List (List Char))
    (repl : List Char → Option Char → List Char) (s : List Char) : List Char :=
  subScanF style terms repl s.length none s

/-! ## Sorting terms by length, descending (stable, like Python `sorted`) -/

/-- Stable insertion for a descending sort by a length measure: walk past
strictly longer elements, insert before the first element of equal or smaller
length. -/
def insertLenDesc {α : Type} (len : α → Nat) (t : α) : List α → List α
  | [] => [t]
  | u :: us => if len t < len u then u :: insertLenDesc len t us else t :: u :: us

/-- `sorted(terms, key=len, reverse=True)` /
`valid_terms.sort(key=lambda x: len(x[0]), reverse=True)`. -/
def sortLenDesc {α : Type} (len : α → Nat) (l : List α) : List α :=
  l.foldr (insertLenDesc len) []

theorem mem_insertLenDesc {α : Type} (len : α → Nat) (t a : α) :
    ∀ l : List α, a ∈ insertLenDesc len t l → a = t ∨ a ∈ l
  | [] => by simp [insertLenDesc]
  | u :: us => by
    rw [insertLenDesc]
    split
    · intro h
      rcases List.mem_cons.mp h with h1 | h1
      · right; simp [h1]
      · rcases mem_insertLenDesc len t a us h1 with h2 | h2
        · left; exact h2
        · right; simp [h2]
    · intro h
      rcases List.mem_cons.mp h with h1 | h1
      · left; exact h1
      · right; exact h1

theorem mem_sortLenDesc {α : Type} (len : α → Nat) (a : α) :
    ∀ l : List α, a ∈ sortLenDesc len l → a ∈ l
  | [] => by simp [sortLenDesc]
  | x :: xs => by
    intro h
    rw [sortLenDesc, List.foldr_cons] at h
    rcases mem_insertLenDesc len x a _ h with h1 | h1
    · simp [h1]
    · exact List.mem_cons_of_mem _ (mem_sortLenDesc len a xs h1)

theorem self_mem_insertLenDesc {α : Type} (len : α → Nat) (t : α) :
    ∀ l : List α, t ∈ insertLenDesc len t l
  | [] => by simp [insertLenDesc]
  | u :: us => by
    rw [insertLenDesc]
    split
    · exact List.mem_cons_of_mem _ (self_mem_insertLenDesc len t us)
    · exact List.mem_cons_self _ _

theorem mem_insertLenDesc_of_mem {α : Type} (len : α → Nat) (t a : α) :
    ∀ l : List α, a ∈ l → a ∈ insertLenDesc len t l
  | [], h => by simp at h
  | u :: us, h => by
    rw [insertLenDesc]
    split
    · rcases List.mem_cons.mp h with h1 | h1
      · exact h1 ▸ List.mem_cons_self _ _
      · exact List.mem_cons_of_mem _ (mem_insertLenDesc_of_mem len t a us h1)
    · exact List.mem_cons_of_mem _ h

theorem sortLenDesc_mem_of {α : Type} (len : α → Nat) (a : α) :
    ∀ l : List α, a ∈ l → a ∈ sortLenDesc len l
  | [], h => by simp at h
  | x :: xs, h => by
    rw [sortLenDesc, List.foldr_cons]
    rcases List.mem_cons.mp h with h1 | h1
    · subst h1
      exact self_mem_insertLenDesc len a _
    · exact mem_insertLenDesc_of_mem len x a _ (sortLenDesc_mem_of len a xs h1)

theorem pairwise_insertLenDesc {α : Type} (len : α → Nat) (t : α) :
    ∀ l : List α, List.Pairwise (fun a b => len b ≤ len a) l →
    List.Pairwise (fun a b => len b ≤ len a) (insertLenDesc len t l)
  | [], _ => by simp [insertLenDesc]
  | u :: us, hp => by
    rw [insertLenDesc]
    obtain ⟨hu, hus⟩ := List.pairwise_cons.mp hp
    split
    · refine List.pairwise_cons.mpr ⟨?_, pairwise_insertLenDesc len t us hus⟩
      intro b hb
      rcases mem_insertLenDesc len t b us hb with h1 | h1
      · subst h1; omega
      · exact hu b h1
    · refine List.pairwise_cons.mpr ⟨?_, hp⟩
      intro b hb
      rcases List.mem_cons.mp hb with h1 | h1
      · subst h1; omega
      · have := hu b h1; omega

theorem pairwise_sortLenDesc {α : Type} (len : α → Nat) :
    ∀ l : List α, List.Pairwise (fun a b => len b ≤ len a) (sortLenDesc len l)
  | [] => by simp [sortLenDesc]
  | x :: xs => by
    rw [sortLenDesc, List.foldr_cons]
    exact pairwise_insertLenDesc len x _ (pairwise_sortLenDesc len xs)

theorem find?_sorted_longest {α : Type} {len : α → Nat} {p : α → Bool} :
    ∀ {l : List α}, List.Pairwise (fun a b => len b ≤ len a) l →
    ∀ {t u : α}, l.find? p = some t → u ∈ l → p u = true → len u ≤ len t
  | [], _, t, u, hf, hu, _ => by simp at hf
  | h :: l', hp, t, u, hf, hu, hpu => by
    obtain ⟨hh, hl'⟩ := List.pairwise_cons.mp hp
    by_cases hph : p h = true
    · rw [List.find?_cons_of_pos _ hph] at hf
      cases hf
      rcases List.mem_cons.mp hu with h1 | h1
      · subst h1; omega
      · exact hh u h1
    · rw [List.find?_cons_of_neg _ (by simpa using hph)] at hf
      rcases List.mem_cons.mp hu with h1 | h1
      · subst h1; exact absurd hpu hph
      · exact find?_sorted_longest hl' hf h1 hpu

/-! ## Glossary structures of `agents/tools/terms.py` -/

/-- A glossary entry (`TermPair`): English term, Gujarati term,
transliteration. -/
structure TermPairT where
  en : String
  gu : String
  translit : String
  deriving Repr, DecidableEq

/-- First-occurrence association-list lookup (Python dict access on a dict
represented by its insertion-ordered entries). -/
def assocLookup {α β : Type} [DecidableEq α] : List (α × β) → α → Option β
  | [], _ => none
  | (k, v) :: rest, q => if k = q then some v else assocLookup rest q

/-- `EN_INDEX = {tp.en.lower(): tp for tp in TERM_PAIRS}`: keys ordered by
first occurrence, later pairs with the same lowercased term win. -/
def buildEnIndex (pairs : List TermPairT) : List (String × TermPairT) :=
  pyDictOf (pairs.map (fun tp => (pyStrLower tp.en, tp)))

/-- Model of `rapidfuzz.process.extractOne`'s best-choice scan.  The scorer is
a parameter (rapidfuzz is an external dependency); among equal scores the
earliest choice wins, matching the library's scan order. -/
def bestChoiceScore (ratio : String → String → ℚ) (q : String) :
    List String → Option (String × ℚ)
  | [] => none
  | c :: cs =>
    match bestChoiceScore ratio q cs with
    | none => some (c, ratio q c)
    | some (b, sb) => if sb > ratio q c then some (b, sb) else some (c, ratio q c)

/-- Model of `process.extractOne(query, choices, score_cutoff=...)`: the best
choice, returned only when its score reaches the cutoff (the cutoff is
inclusive). -/
def extractOne (ratio : String → String → ℚ) (q : String)
    (choices : List String) (cutoff : ℚ) : Option (String × ℚ) :=
  (bestChoiceScore ratio q choices).bind
    (fun p => if p.2 ≥ cutoff then some p else none)

/-- The lookup step of `normalize_text_with_glossary.replacer`: exact match in
the index first, fuzzy `extractOne` fallback otherwise.  A fuzzy candidate is
always one of the index's keys, so the final lookup always succeeds; its
cannot-happen branch returns `none` (no hit). -/
def glossaryLookupGu (enIndex : List (String × TermPairT)) (enTerms : List String)
    (ratio : String → String → ℚ) (threshold : ℚ) (lw : String) : Option String :=
  match assocLookup enIndex lw with
  | some tp => some tp.gu
  | none =>
    match extractOne ratio lw enTerms threshold with
    | some (mt, _) =>
      match assocLookup enIndex mt with
      | some tp => some tp.gu
      | none => none
    | none => none

/-- The replacement function of `normalize_text_with_glossary`: on a hit,
`f"{word} [{gujarati}] "` when the character right after the match is
alphanumeric, `f"{word} [{gujarati}]"` otherwise; on a miss the matched text
is returned unchanged. -/
def glossaryReplacer (enIndex : List (String × TermPairT)) (enTerms : List String)
    (ratio : String → String → ℚ) (threshold : ℚ)
    (span : List Char) (next : Option Char) : List Char :=
  match glossaryLookupGu enIndex enTerms ratio threshold
      (String.mk (pyStrip (lowerChars span))) with
  | none => span
  | some gu =>
    if (match next with | some c => pyIsAlnum c | none => false)
    then span ++ (" [" ++ gu ++ "] ").toList
    else span ++ (" [" ++ gu ++ "]").toList

/-- Model of `normalize_text_with_glossary` together with the module-level
`EN_INDEX`, `EN_TERMS` and `GLOSSARY_PATTERN = \b(...)\b` construction
(`build_glossary_pattern` sorts the terms longest first). -/
def normalizeTextWithGlossary (ratio : String → String → ℚ)
    (pairs : List TermPairT) (threshold : ℚ) (text : String) : String :=
  let enIndex := buildEnIndex pairs
  let enTerms := enIndex.map Prod.fst
  let patternTerms := sortLenDesc List.length (enTerms.map String.toList)
  String.mk (pySub .word patternTerms
    (glossaryReplacer enIndex enTerms ratio threshold) text.toList)

/-! ## The paired-translation glossary of `BaseTranslator._compile_patterns`
and `_add_paired_translations` -/

/-- Python `' '.join(text.split())`: collapse whitespace runs to single
spaces and trim. -/
def pyWsNorm (s : String) : String :=
  String.mk (List.intercalate [' ']
    ((s.toList.splitOnP pyIsSpace).filter (fun w => !w.isEmpty)))

/-- The filtering loop of `_compile_patterns`: strip both sides of each pair,
drop pairs with an empty side, then normalize whitespace. -/
def validTerms (tps : List (String × String)) : List (String × String) :=
  tps.filterMap (fun st =>
    let source := String.mk (pyStrip st.1.toList)
    let target := String.mk (pyStrip st.2.toList)
    if source = "" || target = "" then none
    else some (pyWsNorm source, pyWsNorm target))

/-- The replacement function of `_add_paired_translations`: on a hit,
`f"{original_case} ({translation})"` where `original_case` is the glossary's
casing of the term; on a miss the matched text is returned unchanged.  No
trailing space is ever appended here. -/
def pairedReplacer (termMapping caseMapping : List (String × String))
    (span : List Char) (_next : Option Char) : List Char :=
  let lookupTerm := String.mk (pyStrip (lowerChars span))
  let translation := (assocLookup termMapping lookupTerm).getD ""
  if translation = "" then span
  else
    let originalCase := (assocLookup caseMapping lookupTerm).getD (String.mk span)
    (originalCase ++ " (" ++ translation ++ ")").toList

/-- Model of `_compile_patterns` plus `_add_paired_translations`: with no
valid terms no pattern is compiled and the text passes through; otherwise the
pattern is the length-descending alternation of the sources with
space-or-edge lookarounds, and each match is replaced by `pairedReplacer`.
(The sources are matched as literals; the double-escaping of backslashes in
the Python code only affects sources containing a backslash, which no claim
involves.) -/
def addPairedTranslations (termPairs : List (String × String)) (text : String) :
    String :=
  let vt := sortLenDesc (fun p : String × String => p.1.length) (validTerms termPairs)
  match vt with
  | [] => text
  | _ =>
    let termMapping := pyDictOf (vt.map (fun p => (pyStrLower p.1, p.2)))
    let caseMapping := pyDictOf (vt.map (fun p => (pyStrLower p.1, p.1)))
    let patternTerms := vt.map (fun p => p.1.toList)
    String.mk (pySub .space patternTerms
      (pairedReplacer termMapping caseMapping) text.toList)

/-! ## `search_terms` of `agents/tools/terms.py` -/

/-- The optional language restriction of `search_terms`. -/
inductive GlossLang where
  | en
  | gu
  | translit
  deriving Repr, DecidableEq

/-- The per-pair `max_score` accumulation of `search_terms`: start from 0 and
fold in `fuzz.ratio(term, field.lower()) / 100.0` for each field admitted by
the language filter.  The raw scorer (0–100) is a parameter, as rapidfuzz is
an external dependency. -/
def bestFieldScore (ratio : String → String → ℚ) (term : String)
    (lang : Option GlossLang) (tp : TermPairT) : ℚ :=
  let t := pyStrLower term
  let s1 : ℚ :=
    if lang = none ∨ lang = some GlossLang.en
    then max 0 (ratio t (pyStrLower tp.en) / 100) else 0
  let s2 : ℚ :=
    if lang = none ∨ lang = some GlossLang.gu
    then max s1 (ratio t (pyStrLower tp.gu) / 100) else s1
  if lang = none ∨ lang = some GlossLang.translit
  then max s2 (ratio t (pyStrLower tp.translit) / 100) else s2

/-- The matching loop of `search_terms`: a pair is kept, with its score,
exactly when `max_score >= threshold`. -/
def searchMatches (ratio : String → String → ℚ) (term : String)
    (threshold : ℚ) (lang : Option GlossLang) (pairs : List TermPairT) :
    List (TermPairT × ℚ) :=
  pairs.filterMap (fun tp =>
    let ms := bestFieldScore ratio term lang tp
    if ms ≥ threshold then some (tp, ms) else none)

/-! ## The orchestrator `BaseTranslator.translate` and the backends -/

/-- The observable outcome of one `translate` call: the returned value
(`none` models an uncaught exception) and the list of batches handed to
`translate_texts`, in call order. -/
structure TransResult where
  result : Option TV
  calls : List (List String)
  deriving Repr, DecidableEq

/-- The non-string arm of `translate`: collect, return the input unchanged
when nothing was collected, otherwise optionally annotate, send one batch to
the backend, and reconstruct. -/
def translateStructured (backend : List String → List String)
    (termPairs : List (String × String)) (useTermPairs : Bool)
    (data : TV) (excludeKeys : List String) : TransResult :=
  let pathsAndStrings := collectTranslatableStrings data excludeKeys
  if pathsAndStrings.isEmpty then { result := some data, calls := [] }
  else
    let paths := pathsAndStrings.map Prod.fst
    let strings0 := pathsAndStrings.map Prod.snd
    let strings :=
      if useTermPairs then strings0.map (addPairedTranslations termPairs)
      else strings0
    { result := reconstructData data (backend strings) paths
      calls := [strings] }

/-- Model of `BaseTranslator.translate`.  A bare string is handled directly:
it is annotated and sent (alone) to the backend only when the exclude set is
empty and the string is translatable, and is returned untouched otherwise;
`[0]` on an empty backend reply models as `none`.  Everything else goes
through collect/reconstruct. -/
def translateRun (backend : List String → List String)
    (termPairs : List (String × String)) (useTermPairs : Bool)
    (data : TV) (excludeKeys : List String) : TransResult :=
  match data with
  | .strv s =>
    if excludeKeys.isEmpty && shouldTranslateString s then
      let text := if useTermPairs then addPairedTranslations termPairs s else s
      { result := ((backend [text]).head?).map TV.strv, calls := [[text]] }
    else { result := some (.strv s), calls := [] }
  | .null => translateStructured backend termPairs useTermPairs .null excludeKeys
  | .boolv b =>
    translateStructured backend termPairs useTermPairs (.boolv b) excludeKeys
  | .numv n =>
    translateStructured backend termPairs useTermPairs (.numv n) excludeKeys
  | .seqv xs =>
    translateStructured backend termPairs useTermPairs (.seqv xs) excludeKeys
  | .mapv kvs =>
    translateStructured backend termPairs useTermPairs (.mapv kvs) excludeKeys

/-- One request to a machine-translation backend, as the spec's abstract
request shape: source language, target language, the ordered input texts. -/
structure MtRequest where
  sourceLang : String
  targetLang : String
  inputs : List String
  deriving Repr, DecidableEq

/-- Model of `BhashiniTranslator.translate_texts`: exactly one pipeline POST
is issued, whose `inputData.input` lists every given text (there is no
empty-list short-circuit); the network is a parameter mapping the request to
`none` (non-200 status, an exception) or the extracted targets. -/
def bhashiniTranslateTexts (net : MtRequest → Option (List String))
    (sourceLang targetLang : String) (texts : List String) :
    List MtRequest × Option (List String) :=
  let req : MtRequest := ⟨sourceLang, targetLang, texts⟩
  ([req], net req)

/-- Model of `GoogleTranslator.translate_texts`: exactly one client call is
issued with every given text (no empty-list short-circuit); an empty result
list raises (`if not results: raise`), modelled as `none`. -/
def googleTranslateTexts (client : MtRequest → List String)
    (sourceLang targetLang : String) (texts : List String) :
    List MtRequest × Option (List String) :=
  let req : MtRequest := ⟨sourceLang, targetLang, texts⟩
  ([req], if (client req).isEmpty then none else some (client req))

/-! ## Trees with no translatable leaves -/

mutual
/-- Whether a tree contains some translatable string leaf (ignoring
exclusions). -/
def hasTransTV : TV → Bool
  | .null => false
  | .boolv _ => false
  | .numv _ => false
  | .strv s => shouldTranslateString s
  | .seqv xs => hasTransTVs xs
  | .mapv kvs => hasTransTVm kvs
/-- `hasTransTV` over a sequence. -/
def hasTransTVs : TVs → Bool
  | .nil => false
  | .cons x xs => hasTransTV x || hasTransTVs xs
/-- `hasTransTV` over a mapping's values. -/
def hasTransTVm : TVm → Bool
  | .nil => false
  | .cons _ v rest => hasTransTV v || hasTransTVm rest
end

mutual
theorem collectGo_empty_of_noTrans (ex : List String) :
    ∀ (cur : TV) (path : List Tok), hasTransTV cur = false →
    collectGo ex cur path = []
  | .null, path, _ => by rw [collectGo]; split <;> rfl
  | .boolv _, path, _ => by rw [collectGo]; split <;> rfl
  | .numv _, path, _ => by rw [collectGo]; split <;> rfl
  | .strv s, path, h => by
    rw [hasTransTV] at h
    rw [collectGo]
    split
    · rfl
    · rw [if_neg (by simp [h])]
  | .mapv kvs, path, h => by
    rw [hasTransTV] at h
    rw [collectGo]
    split
    · rfl
    · exact collectMap_empty_of_noTrans ex kvs path h
  | .seqv xs, path, h => by
    rw [hasTransTV] at h
    rw [collectGo]
    split
    · rfl
    · exact collectSeq_empty_of_noTrans ex xs path 0 h
theorem collectMap_empty_of_noTrans (ex : List String) :
    ∀ (kvs : TVm) (path : List Tok), hasTransTVm kvs = false →
    collectMap ex kvs path = []
  | .nil, _, _ => rfl
  | .cons k v rest, path, h => by
    rw [hasTransTVm] at h
    simp only [Bool.or_eq_false_iff] at h
    rw [collectMap, collectGo_empty_of_noTrans ex v _ h.1,
      collectMap_empty_of_noTrans ex rest path h.2]
    rfl
theorem collectSeq_empty_of_noTrans (ex : List String) :
    ∀ (xs : TVs) (path : List Tok) (i : Nat), hasTransTVs xs = false →
    collectSeq ex xs path i = []
  | .nil, _, _, _ => rfl
  | .cons x rest, path, i, h => by
    rw [hasTransTVs] at h
    simp only [Bool.or_eq_false_iff] at h
    rw [collectSeq, collectGo_empty_of_noTrans ex x _ h.1,
      collectSeq_empty_of_noTrans ex rest path (i + 1) h.2]
    rfl
end

/-! ## C9, C10, C6: orchestrator behaviour -/

/-- C9: `translate("")` and `translate({})` return the input unchanged with
no backend call, and translating any structure with zero translatable string
leaves makes zero backend calls and returns it unchanged. -/
theorem translate_no_translatable_no_calls :
    (∀ (backend : List String → List String) termPairs useTP ex,
      translateRun backend termPairs useTP (TV.strv "") ex =
        { result := some (TV.strv ""), calls := [] }) ∧
    (∀ (backend : List String → List String) termPairs useTP ex,
      translateRun backend termPairs useTP (TV.mapv .nil) ex =
        { result := some (TV.mapv .nil), calls := [] }) ∧
    (∀ (backend : List String → List String) termPairs useTP data ex,
      hasTransTV data = false →
      translateRun backend termPairs useTP data ex =
        { result := some data, calls := [] }) := by
  have h3 : ∀ (backend : List String → List String) termPairs useTP data ex,
      hasTransTV data = false →
      translateRun backend termPairs useTP data ex =
        { result := some data, calls := [] } := by
    intro backend tp u data ex h
    cases data with
    | strv s =>
      rw [hasTransTV] at h
      rw [translateRun, if_neg (by simp [h])]
    | null =>
      have hc : collectTranslatableStrings .null ex = [] :=
        collectGo_empty_of_noTrans ex .null [] h
      simp [translateRun, translateStructured, hc]
    | boolv b =>
      have hc : collectTranslatableStrings (.boolv b) ex = [] :=
        collectGo_empty_of_noTrans ex (.boolv b) [] h
      simp [translateRun, translateStructured, hc]
    | numv n =>
      have hc : collectTranslatableStrings (.numv n) ex = [] :=
        collectGo_empty_of_noTrans ex (.numv n) [] h
      simp [translateRun, translateStructured, hc]
    | seqv xs =>
      have hc : collectTranslatableStrings (.seqv xs) ex = [] :=
        collectGo_empty_of_noTrans ex (.seqv xs) [] h
      simp [translateRun, translateStructured, hc]
    | mapv kvs =>
      have hc : collectTranslatableStrings (.mapv kvs) ex = [] :=
        collectGo_empty_of_noTrans ex (.mapv kvs) [] h
      simp [translateRun, translateStructured, hc]
  exact ⟨fun backend tp u ex => h3 backend tp u (.strv "") ex (by decide),
    fun backend tp u ex => h3 backend tp u (.mapv .nil) ex rfl, h3⟩

/-- Witness for `translate_no_translatable_no_calls` at a leafless concrete
structure. -/
theorem translate_no_translatable_no_calls_witness :
    translateRun (fun l => l) [] true
        (.seqv (.cons (.numv 7) (.cons (.strv "!?") .nil))) ["x"] =
      { result := some (.seqv (.cons (.numv 7) (.cons (.strv "!?") .nil)))
        calls := [] } :=
  translate_no_translatable_no_calls.2.2 (fun l => l) [] true
    (.seqv (.cons (.numv 7) (.cons (.strv "!?") .nil))) ["x"] (by decide)

/-- C10: a bare string together with a nonempty exclude set is returned
unchanged — no annotation, no backend call. -/
theorem translate_string_with_excludes_unchanged
    (backend : List String → List String) (termPairs : List (String × String))
    (useTP : Bool) (s : String) (ex : List String) (hex : ex ≠ []) :
    translateRun backend termPairs useTP (.strv s) ex =
      { result := some (.strv s), calls := [] } := by
  have hne : ex.isEmpty = false := by
    cases ex with
    | nil => exact absurd rfl hex
    | cons a l => rfl
  rw [translateRun, if_neg (by simp [hne])]

/-- Witness for `translate_string_with_excludes_unchanged`: a translatable
string and a nonempty exclude set, with the glossary switched on. -/
theorem translate_string_with_excludes_unchanged_witness :
    translateRun (fun l => l) [("hello", "bonjour")] true
        (.strv "hello") ["secret"] =
      { result := some (.strv "hello"), calls := [] } :=
  translate_string_with_excludes_unchanged (fun l => l) [("hello", "bonjour")]
    true "hello" ["secret"] (by decide)

/-- C6 counterexample: calling `translate_texts` with an empty list still
issues exactly one network request carrying zero texts (the Bhashini
implementation posts `input: []`), and the Google implementation then raises
instead of returning an empty list. -/
theorem translate_texts_empty_still_requests :
    (bhashiniTranslateTexts (fun _ => some []) "en" "hi" []).1 =
      [{ sourceLang := "en", targetLang := "hi", inputs := [] }] ∧
    (googleTranslateTexts (fun _ => []) "en" "hi" []).1 =
      [{ sourceLang := "en", targetLang := "hi", inputs := [] }] ∧
    (googleTranslateTexts (fun _ => []) "en" "hi" []).2 = none :=
  ⟨rfl, rfl, rfl⟩

theorem translateStructured_batches_nonempty
    (backend : List String → List String) (termPairs : List (String × String))
    (useTP : Bool) (data : TV) (ex : List String) (batch : List String)
    (hb : batch ∈ (translateStructured backend termPairs useTP data ex).calls) :
    batch ≠ [] := by
  simp only [translateStructured] at hb
  by_cases hc : (collectTranslatableStrings data ex).isEmpty = true
  · rw [if_pos hc] at hb
    simp at hb
  · rw [if_neg hc] at hb
    have hC : collectTranslatableStrings data ex ≠ [] := by
      intro h0
      rw [h0] at hc
      exact hc rfl
    simp only [List.mem_singleton] at hb
    subst hb
    intro h0
    cases useTP <;> simp [List.map_eq_nil_iff] at h0 <;> exact hC h0

/-- C6 (amended): both backend implementations always issue exactly one
request containing exactly the given texts — there is no empty-list
short-circuit — but the orchestrator never hands an empty batch to a backend:
every batch `translate` sends is nonempty. -/
theorem backend_requests_and_batches :
    (∀ (net : MtRequest → Option (List String)) (src tgt : String)
        (texts : List String),
      (bhashiniTranslateTexts net src tgt texts).1 =
        [{ sourceLang := src, targetLang := tgt, inputs := texts }]) ∧
    (∀ (client : MtRequest → List String) (src tgt : String)
        (texts : List String),
      (googleTranslateTexts client src tgt texts).1 =
        [{ sourceLang := src, targetLang := tgt, inputs := texts }]) ∧
    (∀ (backend : List String → List String) termPairs useTP data ex batch,
      batch ∈ (translateRun backend termPairs useTP data ex).calls →
      batch ≠ []) := by
  refine ⟨fun _ _ _ _ => rfl, fun _ _ _ _ => rfl, ?_⟩
  intro backend tp u data ex batch hb
  cases data with
  | strv s =>
    rw [translateRun] at hb
    split at hb
    · simp only [List.mem_singleton] at hb
      subst hb
      simp
    · simp at hb
  | null => exact translateStructured_batches_nonempty backend tp u _ ex batch hb
  | boolv b => exact translateStructured_batches_nonempty backend tp u _ ex batch hb
  | numv n => exact translateStructured_batches_nonempty backend tp u _ ex batch hb
  | seqv xs => exact translateStructured_batches_nonempty backend tp u _ ex batch hb
  | mapv kvs => exact translateStructured_batches_nonempty backend tp u _ ex batch hb

/-- Witness for `backend_requests_and_batches`: the single batch sent for the
secret-tree example is nonempty. -/
theorem backend_requests_and_batches_witness :
    (["hello", "world"] : List String) ≠ [] :=
  backend_requests_and_batches.2.2 (fun l => l) [] false exampleSecretTree []
    ["hello", "world"] (by decide)

/-! ## C7: the fuzzy threshold is inclusive -/

/-- C7: in `search_terms` a pair whose best normalized score equals the
threshold is kept (`max_score >= threshold`), while a score strictly below is
not; and the modelled `extractOne` cutoff used by the fuzzy annotation
fallback is likewise inclusive. -/
theorem fuzzy_threshold_inclusive :
    (∀ (ratio : String → String → ℚ) (term : String) (threshold : ℚ)
        (lang : Option GlossLang) (pairs : List TermPairT) (tp : TermPairT),
      0 ≤ threshold → threshold ≤ 1 → tp ∈ pairs →
      ((bestFieldScore ratio term lang tp = threshold →
        tp ∈ (searchMatches ratio term threshold lang pairs).map Prod.fst) ∧
       (bestFieldScore ratio term lang tp < threshold →
        tp ∉ (searchMatches ratio term threshold lang pairs).map Prod.fst))) ∧
    (∀ (ratio : String → String → ℚ) (q : String) (choices : List String)
        (cutoff : ℚ) (b : String) (sb : ℚ),
      (extractOne ratio q choices cutoff = some (b, sb) → sb ≥ cutoff) ∧
      (bestChoiceScore ratio q choices = some (b, sb) → sb = cutoff →
        extractOne ratio q choices cutoff = some (b, sb))) := by
  constructor
  · intro ratio term threshold lang pairs tp _ _ htp
    constructor
    · intro heq
      refine List.mem_map.mpr ⟨(tp, bestFieldScore ratio term lang tp), ?_, rfl⟩
      refine List.mem_filterMap.mpr ⟨tp, htp, ?_⟩
      rw [if_pos (le_of_eq heq.symm)]
    · intro hlt hmem
      obtain ⟨pr, hpr, hfst⟩ := List.mem_map.mp hmem
      obtain ⟨a, _, hfa⟩ := List.mem_filterMap.mp hpr
      by_cases hge : bestFieldScore ratio term lang a ≥ threshold
      · rw [if_pos hge] at hfa
        have hpr' : (a, bestFieldScore ratio term lang a) = pr :=
          Option.some.inj hfa
        have ha : a = tp := by rw [← hfst, ← hpr']
        subst ha
        exact absurd hge (not_le.mpr hlt)
      · rw [if_neg hge] at hfa
        exact Option.noConfusion hfa
  · intro ratio q choices cutoff b sb
    constructor
    · intro h
      rw [extractOne] at h
      cases hbc : bestChoiceScore ratio q choices with
      | none => rw [hbc] at h; exact Option.noConfusion h
      | some p =>
        rw [hbc, Option.some_bind] at h
        by_cases hge : p.2 ≥ cutoff
        · rw [if_pos hge] at h
          have hp := Option.some.inj h
          rw [hp] at hge
          exact hge
        · rw [if_neg hge] at h
          exact Option.noConfusion h
    · intro hbc heq
      rw [extractOne, hbc, Option.some_bind]
      exact if_pos (le_of_eq heq.symm)

/-- Witness for `fuzzy_threshold_inclusive`: with a constant raw score of
100 and threshold exactly 1, the pair is kept. -/
theorem fuzzy_threshold_inclusive_witness :
    (⟨"x", "y", "z"⟩ : TermPairT) ∈
      (searchMatches (fun _ _ => 100) "x" 1 none [⟨"x", "y", "z"⟩]).map
        Prod.fst :=
  ((fuzzy_threshold_inclusive.1 (fun _ _ => 100) "x" 1 none [⟨"x", "y", "z"⟩]
    ⟨"x", "y", "z"⟩ (by norm_num) (by norm_num) (by simp)).1)
    (by norm_num [bestFieldScore])

/-! ## C3: the longest term wins -/

/-- The glossary with both `"Virus"` and `"Yellow Mosaic Virus"`. -/
def ymvPairs : List TermPairT :=
  [⟨"Virus", "वायरस", "virus"⟩,
   ⟨"Yellow Mosaic Virus", "पीला मोज़ेक वायरस", "yellow mosaic virus"⟩]

/-- C3: with source terms sorted by length descending, the alternative taken
at any position is at least as long as every other term that also matches
there (so the longest candidate wins); on the concrete glossary with
`"Virus"` and `"Yellow Mosaic Virus"` the text
`"treat Yellow Mosaic Virus early"` receives exactly one annotation, attached
to the full phrase, whatever the fuzzy scorer is. -/
theorem longest_term_wins :
    (∀ (style : BoundaryStyle) (ts : List (List Char)) (prev : Option Char)
        (s t u : List Char),
      tryMatchTerm style (sortLenDesc List.length ts) prev s = some t →
      u ∈ ts → termMatchesAt style prev s u = true → u.length ≤ t.length) ∧
    (∀ ratio : String → String → ℚ,
      normalizeTextWithGlossary ratio ymvPairs 97
          "treat Yellow Mosaic Virus early" =
        "treat Yellow Mosaic Virus [पीला मोज़ेक वायरस] early") := by
  constructor
  · intro style ts prev s t u hf hu hmu
    exact find?_sorted_longest (pairwise_sortLenDesc List.length ts) hf
      (sortLenDesc_mem_of List.length u ts hu) hmu
  · intro ratio
    rfl

/-- Witness for `longest_term_wins`: with terms `"a b"` and `"a"` both
matching at the start of `"a b"`, the scanner picks the longer one. -/
theorem longest_term_wins_witness :
    ("a".toList).length ≤ ("a b".toList).length :=
  longest_term_wins.1 .word ["a b".toList, "a".toList] none "a b".toList
    "a b".toList "a".toList rfl (by simp) (by decide)

/-! ## C5: the annotation insertion rule

The `re.sub` scan is characterised by its event list: each step either copies
one unmatched character or consumes one pattern hit.  The three parts below
say (i) the events decompose the original text, so each matched span is the
text's own characters, casing included; (ii) the substitution output is the
event list rendered in place; (iii) each hit renders as the span itself,
followed by one space and the bracketed target, followed by one further space
exactly when the character after the match is alphanumeric. -/

/-- One recorded step of the `re.sub` scan. -/
inductive SubEvent where
  | lit (c : Char)
  | hit (span : List Char) (next : Option Char)
  deriving Repr, DecidableEq

/-- The characters an event consumed from the input. -/
def SubEvent.source : SubEvent → List Char
  | .lit c => [c]
  | .hit span _ => span

/-- The characters an event contributes to the output. -/
def SubEvent.render (repl : List Char → Option Char → List Char) :
    SubEvent → List Char
  | .lit c => [c]
  | .hit span next => repl span next

/-- The event list of the scan (same control flow as `subScanF`). -/
def scanEventsF (style : BoundaryStyle) (terms : List (List Char)) :
    Nat → Option Char → List Char → List SubEvent
  | 0, _, s => s.map SubEvent.lit
  | _ + 1, _, [] => []
  | fuel + 1, prev, c :: cs =>
    match tryMatchTerm style terms prev (c :: cs) with
    | some t =>
      let span := (c :: cs).take t.length
      let rest := (c :: cs).drop t.length
      SubEvent.hit span rest.head? :: scanEventsF style terms fuel span.getLast? rest
    | none => SubEvent.lit c :: scanEventsF style terms fuel (some c) cs

theorem scanEventsF_source (style : BoundaryStyle) (terms : List (List Char)) :
    ∀ (fuel : Nat) (prev : Option Char) (s : List Char),
    ((scanEventsF style terms fuel prev s).map SubEvent.source).flatten = s := by
  intro fuel
  induction fuel with
  | zero =>
    intro prev s
    show ((s.map SubEvent.lit).map SubEvent.source).flatten = s
    induction s with
    | nil => rfl
    | cons c cs ih => simpa [SubEvent.source] using ih
  | succ fuel ih =>
    intro prev s
    match s with
    | [] => rfl
    | c :: cs =>
      rw [scanEventsF]
      cases htm : tryMatchTerm style terms prev (c :: cs) with
      | some t =>
        simp only [List.map_cons, List.flatten_cons, SubEvent.source, ih]
        exact List.take_append_drop _ _
      | none =>
        simp only [List.map_cons, List.flatten_cons, SubEvent.source, ih]
        rfl

theorem subScanF_renders (style : BoundaryStyle) (terms : List (List Char))
    (repl : List Char → Option Char → List Char) :
    ∀ (fuel : Nat) (prev : Option Char) (s : List Char),
    subScanF style terms repl fuel prev s =
      ((scanEventsF style terms fuel prev s).map (SubEvent.render repl)).flatten := by
  intro fuel
  induction fuel with
  | zero =>
    intro prev s
    show s = ((s.map SubEvent.lit).map (SubEvent.render repl)).flatten
    induction s with
    | nil => rfl
    | cons c cs ih => simpa [SubEvent.render] using ih
  | succ fuel ih =>
    intro prev s
    match s with
    | [] => rfl
    | c :: cs =>
      rw [scanEventsF, subScanF]
      cases htm : tryMatchTerm style terms prev (c :: cs) with
      | some t =>
        simp only [List.map_cons, List.flatten_cons, SubEvent.render, ih]
      | none =>
        simp only [List.map_cons, List.flatten_cons, SubEvent.render, ih]
        rfl

/-- The event list of `normalize_text_with_glossary`'s scan over a text. -/
def glossaryScanEvents (pairs : List TermPairT) (text : String) : List SubEvent :=
  let enTerms := (buildEnIndex pairs).map Prod.fst
  let patternTerms := sortLenDesc List.length (enTerms.map String.toList)
  scanEventsF .word patternTerms text.toList.length none text.toList

theorem strToList_append (a b : String) : (a ++ b).toList = a.toList ++ b.toList :=
  rfl

/-- C5: the annotation insertion rule of `normalize_text_with_glossary`.
(i) The scan events decompose the input text, so every matched span is kept
with its original casing; (ii) the output is the input with each hit replaced
in place; (iii) every hit becomes the matched span, one separating space, then
the bracketed target term, then one trailing space exactly when the character
immediately after the match is alphanumeric (and an unrecognised span is left
unchanged). -/
theorem annotation_insertion_rule (ratio : String → String → ℚ)
    (pairs : List TermPairT) (threshold : ℚ) (text : String) :
    (((glossaryScanEvents pairs text).map SubEvent.source).flatten = text.toList) ∧
    ((normalizeTextWithGlossary ratio pairs threshold text).toList =
      ((glossaryScanEvents pairs text).map
        (SubEvent.render (glossaryReplacer (buildEnIndex pairs)
          ((buildEnIndex pairs).map Prod.fst) ratio threshold))).flatten) ∧
    (∀ span next, SubEvent.hit span next ∈ glossaryScanEvents pairs text →
      glossaryReplacer (buildEnIndex pairs) ((buildEnIndex pairs).map Prod.fst)
          ratio threshold span next =
        match glossaryLookupGu (buildEnIndex pairs)
            ((buildEnIndex pairs).map Prod.fst) ratio threshold
            (String.mk (pyStrip (lowerChars span))) with
        | none => span
        | some gu =>
          span ++ (" [" ++ gu ++ "]").toList ++
            (if (next.map pyIsAlnum).getD false then [' '] else [])) := by
  refine ⟨scanEventsF_source _ _ _ _ _, subScanF_renders _ _ _ _ _ _, ?_⟩
  intro span next _
  cases hlk : glossaryLookupGu (buildEnIndex pairs)
      ((buildEnIndex pairs).map Prod.fst) ratio threshold
      (String.mk (pyStrip (lowerChars span))) with
  | none => simp [glossaryReplacer, hlk]
  | some gu =>
    simp only [glossaryReplacer, hlk]
    have h1 : (" [" ++ gu ++ "] ").toList = (" [" ++ gu ++ "]").toList ++ [' '] := by
      rw [strToList_append, strToList_append, strToList_append, strToList_append]
      simp
    cases next with
    | none => simp
    | some c =>
      by_cases ha : pyIsAlnum c = true
      · simp only [ha, Option.map_some', Option.getD_some, if_pos rfl, if_true]
        rw [h1, List.append_assoc]
      · simp only [ha, Option.map_some', Option.getD_some, if_neg, Bool.false_eq_true,
          if_false]
        simp [ha]

/-- The one-entry glossary whose source term ends in a non-word character, so
a following alphanumeric character is possible after a `\b` match. -/
def cppPairs : List TermPairT := [⟨"c++", "सी", "c"⟩]

/-- Witness for `annotation_insertion_rule` part (iii): in `"c++7"` the match
`"c++"` is followed by the alphanumeric `'7'`, so a trailing space is added
after the bracketed term. -/
theorem annotation_insertion_rule_witness :
    glossaryReplacer (buildEnIndex cppPairs)
        ((buildEnIndex cppPairs).map Prod.fst) (fun _ _ => 0) 97
        "c++".toList (some '7') =
      "c++".toList ++ (" [" ++ "सी" ++ "]").toList ++ [' '] := by
  have h := (annotation_insertion_rule (fun _ _ => 0) cppPairs 97 "c++7").2.2
    "c++".toList (some '7') (by decide)
  rw [h]
  rfl

/-! ## Markdown chunking (`markdown_to_chunks` / `chunks_to_markdown`)

`re.split(r'(^\s*(?:#{1,6}|\-|\+|\d+\.)\s+)', text, flags=re.MULTILINE)` is
modelled by a scan that, at every line start, tries to match leading
whitespace, then a heading/bullet/numbered marker, then at least one
whitespace character (all greedy; the pieces between matches and the captured
separators are returned in order). -/

/-- The marker alternation `#{1,6}|\-|\+|\d+\.` at the head of a string:
returns the matched length.  A run of more than six `#` can never satisfy the
following `\s+` after backtracking (the next character is another `#`), so it
fails; digits must be followed directly by a dot. -/
def markerHead : List Char → Option Nat
  | [] => none
  | c :: cs =>
    if c = '#' then
      let run := 1 + (cs.takeWhile (fun d => d = '#')).length
      if run ≤ 6 then some run else none
    else if c = '-' ∨ c = '+' then some 1
    else if c.isDigit then
      let run := 1 + (cs.takeWhile Char.isDigit).length
      match (c :: cs).drop run with
      | '.' :: _ => some (run + 1)
      | _ => none
    else none

/-- `\s*(?:#{1,6}|\-|\+|\d+\.)\s+` anchored at the given position: leading
whitespace, a marker, then at least one whitespace character. -/
def matchMarkerCore (s : List Char) : Option Nat :=
  let w := s.takeWhile pyIsSpace
  let rest := s.drop w.length
  match markerHead rest with
  | none => none
  | some m =>
    let t := (rest.drop m).takeWhile pyIsSpace
    if t.isEmpty then none else some (w.length + m + t.length)

/-- The `re.split` scan with fuel: at each line start (position 0, or right
after a newline — `re.MULTILINE`), try the marker pattern; on a match emit
the accumulated piece and the captured separator and resume after it,
otherwise advance one character. -/
def splitPartsF : Nat → Bool → List Char → List Char → List (List Char)
  | 0, _, acc, s => [acc.reverse ++ s]
  | _ + 1, _, acc, [] => [acc.reverse]
  | fuel + 1, atLineStart, acc, c :: cs =>
    if atLineStart then
      match matchMarkerCore (c :: cs) with
      | some n =>
        let sep := (c :: cs).take n
        let rest := (c :: cs).drop n
        acc.reverse :: sep ::
          splitPartsF fuel (sep.getLast? == some '\n') [] rest
      | none => splitPartsF fuel (c == '\n') (c :: acc) cs
    else splitPartsF fuel (c == '\n') (c :: acc) cs

/-- The parts `re.split` produces for the chunking pattern. -/
def rePartsSplit (s : List Char) : List (List Char) :=
  splitPartsF s.length true [] s

/-- A chunk: the dict `{'start': ..., 'text': ..., 'end': ...}` of
`markdown_to_chunks` (the `end` key is the field `stop`). -/
structure Chunk where
  start : String
  text : String
  stop : String
  deriving Repr, DecidableEq

/-- `re.match(r'^\s*(?:#{1,6}|\-|\+|\d+\.)\s+$', part)` as a full test:
leading whitespace, a marker, then at least one whitespace character running
to the end of the part (`$` also matches just before a final newline, which
the trailing `\s+` covers). -/
def isMarkerPart (p : List Char) : Bool :=
  let w := p.takeWhile pyIsSpace
  let rest := p.drop w.length
  match markerHead rest with
  | none => false
  | some m =>
    let t := rest.drop m
    !t.isEmpty && t.all pyIsSpace

/-- The per-part chunk construction of `markdown_to_chunks`: empty parts are
skipped; marker parts become `{start: part, text: '', end: ''}`; prose parts
become `{start: '', text: part.strip(), end: '\n' if part.endswith('\n')
else ''}`. -/
def chunkOfPart (part : List Char) : Option Chunk :=
  if part.isEmpty then none
  else if isMarkerPart part then some ⟨String.mk part, "", ""⟩
  else some ⟨"", String.mk (pyStrip part),
    if part.getLast? == some '\n' then "\n" else ""⟩

/-- Model of `markdown_to_chunks`. -/
def markdownToChunks (text : String) : List Chunk :=
  (rePartsSplit text.toList).filterMap chunkOfPart

/-- Model of `chunks_to_markdown`:
`''.join(f"{c['start']}{c['text']}{c['end']}" for c in chunks)`. -/
def chunksToMarkdown (chunks : List Chunk) : String :=
  String.join (chunks.map (fun c => c.start ++ c.text ++ c.stop))

/-- What split-time normalization does to a part: markers are kept verbatim,
prose is stripped with the trailing newline re-attached. -/
def normalizePart (p : List Char) : List Char :=
  if isMarkerPart p then p
  else pyStrip p ++ (if p.getLast? == some '\n' then ['\n'] else [])

theorem splitPartsF_join :
    ∀ (fuel : Nat) (atLS : Bool) (acc s : List Char),
    (splitPartsF fuel atLS acc s).flatten = acc.reverse ++ s
  | 0, _, acc, s => by simp [splitPartsF]
  | _ + 1, _, acc, [] => by simp [splitPartsF]
  | fuel + 1, atLS, acc, c :: cs => by
    rw [splitPartsF]
    by_cases hls : atLS
    · rw [if_pos hls]
      cases hm : matchMarkerCore (c :: cs) with
      | some n =>
        simp only [List.flatten_cons, splitPartsF_join fuel _ [] _]
        simp [List.take_append_drop]
      | none =>
        simp only [splitPartsF_join fuel _ (c :: acc) cs]
        simp
    · rw [if_neg hls]
      simp only [splitPartsF_join fuel _ (c :: acc) cs]
      simp

theorem rePartsSplit_join (s : List Char) : (rePartsSplit s).flatten = s := by
  simpa using splitPartsF_join s.length true [] s

theorem stringJoin_toList :
    ∀ l : List String, (String.join l).toList = (l.map String.toList).flatten := by
  have haux : ∀ (l : List String) (a : String),
      (l.foldl (fun acc s => acc ++ s) a).toList =
        a.toList ++ (l.map String.toList).flatten := by
    intro l
    induction l with
    | nil => intro a; simp
    | cons x xs ih =>
      intro a
      rw [List.foldl_cons, ih]
      simp [strToList_append]
  intro l
  have := haux l ""
  simpa [String.join] using this

theorem chunksToMarkdown_filterMap :
    ∀ parts : List (List Char),
    (chunksToMarkdown (parts.filterMap chunkOfPart)).toList =
      (parts.map normalizePart).flatten
  | [] => by simp [chunksToMarkdown, String.join]
  | p :: parts => by
    have ih := chunksToMarkdown_filterMap parts
    rw [List.map_cons, List.flatten_cons, List.filterMap_cons]
    cases hc : chunkOfPart p with
    | none =>
      have hp : p = [] := by
        by_cases he : p.isEmpty
        · exact List.isEmpty_iff.mp he
        · rw [chunkOfPart, if_neg he] at hc
          split at hc <;> exact Option.noConfusion hc
      subst hp
      rw [ih]
      rfl
    | some ch =>
      have hrender : (ch.start ++ ch.text ++ ch.stop).toList = normalizePart p := by
        rw [chunkOfPart] at hc
        by_cases he : p.isEmpty
        · rw [if_pos he] at hc
          exact Option.noConfusion hc
        · rw [if_neg he] at hc
          by_cases hmk : isMarkerPart p = true
          · rw [if_pos hmk] at hc
            cases hc
            simp [normalizePart, hmk, strToList_append]
          · rw [if_neg hmk] at hc
            cases hc
            simp only [normalizePart, if_neg hmk]
            cases hnl : (p.getLast? == some '\n') <;>
              simp [strToList_append, hnl]
      rw [chunksToMarkdown, List.map_cons, stringJoin_toList, List.map_cons,
        List.flatten_cons, hrender]
      rw [chunksToMarkdown, stringJoin_toList] at ih
      rw [ih]

/-- C8: markdown chunk round trip.  (i) Unconditionally, joining the chunks
of a split reproduces the text with each prose part replaced by its trimmed
form plus re-attached trailing newline (markers verbatim), and the split's
parts concatenate back to the text; (ii) hence on input whose prose parts are
already in normal form, `join ∘ split` is the identity; (iii) on the concrete
input `"# Heading\nSome body text\n- item one\n"` the chunks keep the heading
and bullet markers unaltered and the round trip is exact. -/
theorem markdown_chunk_roundtrip :
    (∀ text : String,
      (chunksToMarkdown (markdownToChunks text)).toList =
        ((rePartsSplit text.toList).map normalizePart).flatten ∧
      (rePartsSplit text.toList).flatten = text.toList) ∧
    (∀ text : String,
      (∀ p ∈ rePartsSplit text.toList, normalizePart p = p) →
      chunksToMarkdown (markdownToChunks text) = text) ∧
    (markdownToChunks "# Heading\nSome body text\n- item one\n" =
      [⟨"# ", "", ""⟩, ⟨"", "Heading\nSome body text", "\n"⟩,
       ⟨"- ", "", ""⟩, ⟨"", "item one", "\n"⟩]) ∧
    (chunksToMarkdown
        (markdownToChunks "# Heading\nSome body text\n- item one\n") =
      "# Heading\nSome body text\n- item one\n") := by
  have h1 : ∀ text : String,
      (chunksToMarkdown (markdownToChunks text)).toList =
        ((rePartsSplit text.toList).map normalizePart).flatten ∧
      (rePartsSplit text.toList).flatten = text.toList := by
    intro text
    exact ⟨chunksToMarkdown_filterMap (rePartsSplit text.toList),
      rePartsSplit_join text.toList⟩
  refine ⟨h1, ?_, by decide, by decide⟩
  intro text hnorm
  have h2 := (h1 text).1
  rw [List.map_congr_left hnorm, List.map_id_fun', id_eq] at h2
  rw [(h1 text).2] at h2
  apply String.ext
  exact h2

/-- Witness for `markdown_chunk_roundtrip`: the concrete input's prose parts
are already in normal form, so the round trip is exact. -/
theorem markdown_chunk_roundtrip_witness :
    chunksToMarkdown
        (markdownToChunks "# Heading\nSome body text\n- item one\n") =
      "# Heading\nSome body text\n- item one\n" :=
  markdown_chunk_roundtrip.2.1 "# Heading\nSome body text\n- item one\n"
    (by decide)

/-! ## C4: aliasing behaviour of reconstruction

To state aliasing, container objects (dicts and lists) carry an explicit
address label; `_deep_copy` allocates fresh addresses from a counter, while
scalars (including strings) are immutable and unlabelled.  Two values share
mutable substructure exactly when they have a container address in common. -/

mutual
/-- A Python object graph (tree-shaped): containers carry their identity. -/
inductive PObj where
  | null
  | boolv (b : Bool)
  | numv (n : Int)
  | strv (s : String)
  | seqv (addr : Nat) (xs : PObjs)
  | mapv (addr : Nat) (kvs : PObjm)
  deriving Repr, DecidableEq
/-- A list of Python objects. -/
inductive PObjs where
  | nil
  | cons (hd : PObj) (tl : PObjs)
  deriving Repr, DecidableEq
/-- The entries of a Python dict. -/
inductive PObjm where
  | nil
  | cons (k : String) (v : PObj) (tl : PObjm)
  deriving Repr, DecidableEq
end

mutual
/-- Container addresses occurring in a value. -/
def addrsP : PObj → List Nat
  | .null => []
  | .boolv _ => []
  | .numv _ => []
  | .strv _ => []
  | .seqv a xs => a :: addrsPs xs
  | .mapv a kvs => a :: addrsPm kvs
/-- Container addresses in a list of objects. -/
def addrsPs : PObjs → List Nat
  | .nil => []
  | .cons x xs => addrsP x ++ addrsPs xs
/-- Container addresses in a dict's values. -/
def addrsPm : PObjm → List Nat
  | .nil => []
  | .cons _ v rest => addrsP v ++ addrsPm rest
end

mutual
/-- Model of `_deep_copy` with an allocation counter: each dict and list in
the input is rebuilt as a fresh object, scalars are shared. -/
def deepCopyP : Nat → PObj → Nat × PObj
  | n, .null => (n, .null)
  | n, .boolv b => (n, .boolv b)
  | n, .numv m => (n, .numv m)
  | n, .strv s => (n, .strv s)
  | n, .seqv _ xs => ((deepCopyPs (n + 1) xs).1, .seqv n (deepCopyPs (n + 1) xs).2)
  | n, .mapv _ kvs => ((deepCopyPm (n + 1) kvs).1, .mapv n (deepCopyPm (n + 1) kvs).2)
/-- `_deep_copy` over a list's elements. -/
def deepCopyPs : Nat → PObjs → Nat × PObjs
  | n, .nil => (n, .nil)
  | n, .cons x xs =>
    ((deepCopyPs (deepCopyP n x).1 xs).1,
     .cons (deepCopyP n x).2 (deepCopyPs (deepCopyP n x).1 xs).2)
/-- `_deep_copy` over a dict's entries. -/
def deepCopyPm : Nat → PObjm → Nat × PObjm
  | n, .nil => (n, .nil)
  | n, .cons k v rest =>
    ((deepCopyPm (deepCopyP n v).1 rest).1,
     .cons k (deepCopyP n v).2 (deepCopyPm (deepCopyP n v).1 rest).2)
end

mutual
/-- Forget addresses: the value of an object graph. -/
def eraseP : PObj → TV
  | .null => .null
  | .boolv b => .boolv b
  | .numv n => .numv n
  | .strv s => .strv s
  | .seqv _ xs => .seqv (erasePs xs)
  | .mapv _ kvs => .mapv (erasePm kvs)
/-- `eraseP` over a list. -/
def erasePs : PObjs → TVs
  | .nil => .nil
  | .cons x xs => .cons (eraseP x) (erasePs xs)
/-- `eraseP` over a dict. -/
def erasePm : PObjm → TVm
  | .nil => .nil
  | .cons k v rest => .cons k (eraseP v) (erasePm rest)
end

/-- Dict lookup on object graphs. -/
def PObjm.lookup : PObjm → String → Option PObj
  | .nil, _ => none
  | .cons k v rest, q => if k = q then some v else rest.lookup q

/-- Dict assignment on object graphs (overwrite in place or append). -/
def PObjm.setKey : PObjm → String → PObj → PObjm
  | .nil, q, v => .cons q v .nil
  | .cons k v0 rest, q, v =>
    if k = q then .cons k v rest else .cons k v0 (rest.setKey q v)

/-- List indexing on object graphs. -/
def PObjs.get? : PObjs → Nat → Option PObj
  | .nil, _ => none
  | .cons x _, 0 => some x
  | .cons _ rest, n + 1 => rest.get? n

/-- List length on object graphs. -/
def PObjs.length : PObjs → Nat
  | .nil => 0
  | .cons _ rest => rest.length + 1

/-- In-range list assignment on object graphs. -/
def PObjs.set : PObjs → Nat → PObj → PObjs
  | .nil, _, _ => .nil
  | .cons _ rest, 0, v => .cons v rest
  | .cons x rest, n + 1, v => .cons x (rest.set n v)

/-- `current = current[key]` on object graphs. -/
def PObj.getTok : PObj → Tok → Option PObj
  | .mapv _ kvs, .key k => kvs.lookup k
  | .seqv _ xs, .idx i => xs.get? i
  | _, _ => none

/-- The final assignment on object graphs; the mutated container keeps its
address (mutation preserves identity). -/
def PObj.setTok : PObj → Tok → String → Option PObj
  | .mapv a kvs, .key k, s => some (.mapv a (kvs.setKey k (.strv s)))
  | .seqv a xs, .idx i, s =>
    if i < xs.length then some (.seqv a (xs.set i (.strv s))) else none
  | _, _, _ => none

/-- Writing back a mutated child; the parent keeps its address. -/
def PObj.updTok : PObj → Tok → PObj → PObj
  | .mapv a kvs, .key k, c => .mapv a (kvs.setKey k c)
  | .seqv a xs, .idx i, c => .seqv a (xs.set i c)
  | v, _, _ => v

/-- One path assignment on object graphs (`setPath` with identity). -/
def setPathP : PObj → List Tok → String → Option PObj
  | _, [], _ => none
  | v, [t], s => v.setTok t s
  | v, t :: t' :: rest, s =>
    match v.getTok t with
    | none => none
    | some child =>
      match setPathP child (t' :: rest) s with
      | none => none
      | some child' => some (v.updTok t child')

/-- Model of `_reconstruct_data` at the object level: with no paths the very
input object is returned; otherwise a fresh deep copy is made and mutated in
place along each path. -/
def reconstructObj (n : Nat) (originalData : PObj)
    (translatedStrings : List String) (paths : List (List Tok)) :
    Option (Nat × PObj) :=
  if paths.isEmpty then some (n, originalData)
  else
    ((pyDictOf (paths.zip translatedStrings)).foldlM
        (fun acc pv => setPathP acc pv.1 pv.2) (deepCopyP n originalData).2).map
      (fun R => ((deepCopyP n originalData).1, R))

mutual
theorem deepCopyP_spec : ∀ (n : Nat) (v : PObj),
    n ≤ (deepCopyP n v).1 ∧
    (∀ a ∈ addrsP (deepCopyP n v).2, n ≤ a ∧ a < (deepCopyP n v).1) ∧
    eraseP (deepCopyP n v).2 = eraseP v
  | n, .null => ⟨le_refl n, by simp [deepCopyP, addrsP], rfl⟩
  | n, .boolv b => ⟨le_refl n, by simp [deepCopyP, addrsP], rfl⟩
  | n, .numv m => ⟨le_refl n, by simp [deepCopyP, addrsP], rfl⟩
  | n, .strv s => ⟨le_refl n, by simp [deepCopyP, addrsP], rfl⟩
  | n, .seqv a xs => by
    obtain ⟨h1, h2, h3⟩ := deepCopyPs_spec (n + 1) xs
    refine ⟨by simp only [deepCopyP]; omega, ?_, ?_⟩
    · intro b hb
      simp only [deepCopyP, addrsP, List.mem_cons] at hb ⊢
      rcases hb with h | h
      · exact ⟨by omega, by omega⟩
      · have := h2 b h
        exact ⟨by omega, this.2⟩
    · simp only [deepCopyP, eraseP, h3]
  | n, .mapv a kvs => by
    obtain ⟨h1, h2, h3⟩ := deepCopyPm_spec (n + 1) kvs
    refine ⟨by simp only [deepCopyP]; omega, ?_, ?_⟩
    · intro b hb
      simp only [deepCopyP, addrsP, List.mem_cons] at hb ⊢
      rcases hb with h | h
      · exact ⟨by omega, by omega⟩
      · have := h2 b h
        exact ⟨by omega, this.2⟩
    · simp only [deepCopyP, eraseP, h3]
theorem deepCopyPs_spec : ∀ (n : Nat) (xs : PObjs),
    n ≤ (deepCopyPs n xs).1 ∧
    (∀ a ∈ addrsPs (deepCopyPs n xs).2, n ≤ a ∧ a < (deepCopyPs n xs).1) ∧
    erasePs (deepCopyPs n xs).2 = erasePs xs
  | n, .nil => ⟨le_refl n, by simp [deepCopyPs, addrsPs], rfl⟩
  | n, .cons x xs => by
    obtain ⟨h1, h2, h3⟩ := deepCopyP_spec n x
    obtain ⟨h1', h2', h3'⟩ := deepCopyPs_spec (deepCopyP n x).1 xs
    refine ⟨by simp only [deepCopyPs]; omega, ?_, ?_⟩
    · intro b hb
      simp only [deepCopyPs, addrsPs, List.mem_append] at hb
      simp only [deepCopyPs]
      rcases hb with h | h
      · have := h2 b h
        exact ⟨this.1, by omega⟩
      · have := h2' b h
        exact ⟨by omega, this.2⟩
    · simp only [deepCopyPs, erasePs, h3, h3']
theorem deepCopyPm_spec : ∀ (n : Nat) (kvs : PObjm),
    n ≤ (deepCopyPm n kvs).1 ∧
    (∀ a ∈ addrsPm (deepCopyPm n kvs).2, n ≤ a ∧ a < (deepCopyPm n kvs).1) ∧
    erasePm (deepCopyPm n kvs).2 = erasePm kvs
  | n, .nil => ⟨le_refl n, by simp [deepCopyPm, addrsPm], rfl⟩
  | n, .cons k v rest => by
    obtain ⟨h1, h2, h3⟩ := deepCopyP_spec n v
    obtain ⟨h1', h2', h3'⟩ := deepCopyPm_spec (deepCopyP n v).1 rest
    refine ⟨by simp only [deepCopyPm]; omega, ?_, ?_⟩
    · intro b hb
      simp only [deepCopyPm, addrsPm, List.mem_append] at hb
      simp only [deepCopyPm]
      rcases hb with h | h
      · have := h2 b h
        exact ⟨this.1, by omega⟩
      · have := h2' b h
        exact ⟨by omega, this.2⟩
    · simp only [deepCopyPm, erasePm, h3, h3']
end

/-! Address propagation through path assignment. -/

theorem addrsPm_setKey : ∀ (kvs : PObjm) (k : String) (c : PObj) (a : Nat),
    a ∈ addrsPm (kvs.setKey k c) → a ∈ addrsPm kvs ∨ a ∈ addrsP c
  | .nil, k, c, a, h => by
    simp only [PObjm.setKey, addrsPm, List.append_nil] at h
    right
    exact h
  | .cons k0 v0 rest, k, c, a, h => by
    rw [PObjm.setKey] at h
    by_cases hk : k0 = k
    · rw [if_pos hk] at h
      simp only [addrsPm, List.mem_append] at h
      rcases h with h | h
      · right; exact h
      · left; simp only [addrsPm, List.mem_append]; right; exact h
    · rw [if_neg hk] at h
      simp only [addrsPm, List.mem_append] at h ⊢
      rcases h with h | h
      · left; left; exact h
      · rcases addrsPm_setKey rest k c a h with h1 | h1
        · left; right; exact h1
        · right; exact h1

theorem addrsPs_set : ∀ (xs : PObjs) (i : Nat) (c : PObj) (a : Nat),
    a ∈ addrsPs (xs.set i c) → a ∈ addrsPs xs ∨ a ∈ addrsP c
  | .nil, _, c, a, h => by left; exact h
  | .cons x rest, 0, c, a, h => by
    simp only [PObjs.set, addrsPs, List.mem_append] at h ⊢
    rcases h with h | h
    · right; exact h
    · left; right; exact h
  | .cons x rest, i + 1, c, a, h => by
    simp only [PObjs.set, addrsPs, List.mem_append] at h ⊢
    rcases h with h | h
    · left; left; exact h
    · rcases addrsPs_set rest i c a h with h1 | h1
      · left; right; exact h1
      · right; exact h1

theorem PObjm.lookup_addrs : ∀ {kvs : PObjm} {k : String} {c : PObj},
    kvs.lookup k = some c → ∀ a ∈ addrsP c, a ∈ addrsPm kvs
  | .nil, k, c, h => by simp [PObjm.lookup] at h
  | .cons k0 v0 rest, k, c, h => by
    rw [PObjm.lookup] at h
    intro a ha
    simp only [addrsPm, List.mem_append]
    by_cases hk : k0 = k
    · rw [if_pos hk] at h
      cases h
      left
      exact ha
    · rw [if_neg hk] at h
      right
      exact PObjm.lookup_addrs h a ha

theorem PObjs.get?_addrs : ∀ {xs : PObjs} {i : Nat} {c : PObj},
    xs.get? i = some c → ∀ a ∈ addrsP c, a ∈ addrsPs xs
  | .nil, i, c, h => by simp [PObjs.get?] at h
  | .cons x rest, 0, c, h => by
    rw [PObjs.get?] at h
    cases h
    intro a ha
    simp only [addrsPs, List.mem_append]
    left
    exact ha
  | .cons x rest, i + 1, c, h => by
    rw [PObjs.get?] at h
    intro a ha
    simp only [addrsPs, List.mem_append]
    right
    exact PObjs.get?_addrs h a ha

theorem PObj.getTok_addrs {v c : PObj} {t : Tok} (h : v.getTok t = some c) :
    ∀ a ∈ addrsP c, a ∈ addrsP v := by
  cases v <;> cases t <;> simp [PObj.getTok] at h
  · intro a ha
    simp only [addrsP, List.mem_cons]
    right
    exact PObjs.get?_addrs h a ha
  · intro a ha
    simp only [addrsP, List.mem_cons]
    right
    exact PObjm.lookup_addrs h a ha

theorem PObj.setTok_addrs {v v' : PObj} {t : Tok} {s : String}
    (h : v.setTok t s = some v') : ∀ a ∈ addrsP v', a ∈ addrsP v := by
  cases v <;> cases t <;> simp [PObj.setTok] at h
  · obtain ⟨_, rfl⟩ := h
    intro a ha
    simp only [addrsP, List.mem_cons] at ha ⊢
    rcases ha with h1 | h1
    · left; exact h1
    · rcases addrsPs_set _ _ _ a h1 with h2 | h2
      · right; exact h2
      · simp [addrsP] at h2
  · subst h
    intro a ha
    simp only [addrsP, List.mem_cons] at ha ⊢
    rcases ha with h1 | h1
    · left; exact h1
    · rcases addrsPm_setKey _ _ _ a h1 with h2 | h2
      · right; exact h2
      · simp [addrsP] at h2

theorem PObj.updTok_addrs (v : PObj) (t : Tok) (c' : PObj) :
    ∀ a ∈ addrsP (v.updTok t c'), a ∈ addrsP v ∨ a ∈ addrsP c' := by
  cases v <;> cases t <;> simp only [PObj.updTok]
  all_goals try (intro a ha; left; exact ha)
  · intro a ha
    simp only [addrsP, List.mem_cons] at ha ⊢
    rcases ha with h1 | h1
    · left; left; exact h1
    · rcases addrsPs_set _ _ _ a h1 with h2 | h2
      · left; right; exact h2
      · right; exact h2
  · intro a ha
    simp only [addrsP, List.mem_cons] at ha ⊢
    rcases ha with h1 | h1
    · left; left; exact h1
    · rcases addrsPm_setKey _ _ _ a h1 with h2 | h2
      · left; right; exact h2
      · right; exact h2

theorem setPathP_cons₂ (v : PObj) (t t' : Tok) (rest : List Tok) (s : String) :
    setPathP v (t :: t' :: rest) s =
      (v.getTok t).bind (fun c =>
        (setPathP c (t' :: rest) s).bind (fun c' => some (v.updTok t c'))) := by
  cases h : v.getTok t with
  | none => simp [setPathP, h]
  | some c =>
    cases h2 : setPathP c (t' :: rest) s <;> simp [setPathP, h, h2]

theorem setPathP_addrs : ∀ (p : List Tok) (v : PObj) (s : String) (v' : PObj),
    setPathP v p s = some v' → ∀ a ∈ addrsP v', a ∈ addrsP v
  | [], v, s, v', h => by simp [setPathP] at h
  | [t], v, s, v', h => PObj.setTok_addrs h
  | t :: t' :: rest, v, s, v', h => by
    rw [setPathP_cons₂] at h
    cases hgt : v.getTok t with
    | none => rw [hgt] at h; exact absurd h (by simp)
    | some child =>
      rw [hgt, Option.some_bind] at h
      cases hsp : setPathP child (t' :: rest) s with
      | none => rw [hsp] at h; exact absurd h (by simp)
      | some c' =>
        rw [hsp, Option.some_bind] at h
        have hv' : v' = v.updTok t c' := (Option.some.inj h).symm
        subst hv'
        intro a ha
        rcases PObj.updTok_addrs v t c' a ha with h1 | h1
        · exact h1
        · exact PObj.getTok_addrs hgt a
            (setPathP_addrs (t' :: rest) child s c' hsp a h1)

theorem foldSetPathP_addrs :
    ∀ (pvs : List (List Tok × String)) (R R' : PObj),
    List.foldlM (fun acc pv => setPathP acc pv.1 pv.2) R pvs = some R' →
    ∀ a ∈ addrsP R', a ∈ addrsP R
  | [], R, R', h => by
    cases h
    exact fun a ha => ha
  | pv :: pvs, R, R', h => by
    rw [List.foldlM_cons] at h
    cases hs : setPathP R pv.1 pv.2 with
    | none => rw [hs] at h; exact absurd h (by simp)
    | some R₁ =>
      rw [hs] at h
      have h' : List.foldlM (fun acc pv => setPathP acc pv.1 pv.2) R₁ pvs =
          some R' := h
      intro a ha
      exact setPathP_addrs pv.1 R pv.2 R₁ hs a
        (foldSetPathP_addrs pvs R₁ R' h' a ha)

/-! Erasing addresses commutes with every reconstruction step. -/

theorem erasePm_lookup : ∀ (kvs : PObjm) (k : String),
    TVm.lookup (erasePm kvs) k = (PObjm.lookup kvs k).map eraseP
  | .nil, _ => rfl
  | .cons k0 v0 rest, k => by
    by_cases hk : k0 = k <;>
      simp [erasePm, TVm.lookup, PObjm.lookup, hk, erasePm_lookup rest k]

theorem erasePs_get? : ∀ (xs : PObjs) (i : Nat),
    TVs.get? (erasePs xs) i = (PObjs.get? xs i).map eraseP
  | .nil, _ => rfl
  | .cons x rest, 0 => rfl
  | .cons x rest, i + 1 => by
    simp [erasePs, TVs.get?, PObjs.get?, erasePs_get? rest i]

theorem erasePs_length : ∀ xs : PObjs, TVs.length (erasePs xs) = xs.length
  | .nil => rfl
  | .cons x rest => by simp [erasePs, TVs.length, PObjs.length, erasePs_length rest]

theorem erasePm_setKey : ∀ (kvs : PObjm) (k : String) (c : PObj),
    erasePm (kvs.setKey k c) = TVm.setKey (erasePm kvs) k (eraseP c)
  | .nil, k, c => rfl
  | .cons k0 v0 rest, k, c => by
    by_cases hk : k0 = k <;>
      simp [erasePm, PObjm.setKey, TVm.setKey, hk, erasePm_setKey rest k c]

theorem erasePs_set : ∀ (xs : PObjs) (i : Nat) (c : PObj),
    erasePs (xs.set i c) = TVs.set (erasePs xs) i (eraseP c)
  | .nil, _, _ => rfl
  | .cons x rest, 0, c => rfl
  | .cons x rest, i + 1, c => by
    simp [erasePs, PObjs.set, TVs.set, erasePs_set rest i c]

theorem eraseP_getTok (v : PObj) (t : Tok) :
    TV.getTok (eraseP v) t = (PObj.getTok v t).map eraseP := by
  cases v <;> cases t <;> simp [eraseP, TV.getTok, PObj.getTok]
  · exact erasePs_get? _ _
  · exact erasePm_lookup _ _

theorem eraseP_setTok (v : PObj) (t : Tok) (s : String) :
    TV.setTok (eraseP v) t s = (PObj.setTok v t s).map eraseP := by
  cases v with
  | null => cases t <;> rfl
  | boolv b => cases t <;> rfl
  | numv n => cases t <;> rfl
  | strv s0 => cases t <;> rfl
  | seqv a xs =>
    cases t with
    | key k => rfl
    | idx i =>
      simp only [eraseP, TV.setTok, PObj.setTok, erasePs_length]
      by_cases hlt : i < xs.length
      · rw [if_pos hlt, if_pos hlt]
        simp [eraseP, erasePs_set]
      · rw [if_neg hlt, if_neg hlt]
        rfl
  | mapv a kvs =>
    cases t with
    | key k =>
      simp only [eraseP, TV.setTok, PObj.setTok, Option.map_some',
        Option.some.injEq]
      rw [erasePm_setKey]
      rfl
    | idx i => rfl

theorem eraseP_updTok (v : PObj) (t : Tok) (c' : PObj) :
    eraseP (v.updTok t c') = TV.updTok (eraseP v) t (eraseP c') := by
  cases v <;> cases t <;> simp [eraseP, PObj.updTok, TV.updTok]
  · exact erasePs_set _ _ _
  · exact erasePm_setKey _ _ _

theorem eraseP_setPath : ∀ (p : List Tok) (v : PObj) (s : String),
    setPath (eraseP v) p s = (setPathP v p s).map eraseP
  | [], v, s => rfl
  | [t], v, s => eraseP_setTok v t s
  | t :: t' :: rest, v, s => by
    rw [setPath_cons₂, setPathP_cons₂, eraseP_getTok]
    cases hgt : PObj.getTok v t with
    | none => rfl
    | some child =>
      simp only [Option.map_some', Option.some_bind]
      rw [eraseP_setPath (t' :: rest) child s]
      cases hsp : setPathP child (t' :: rest) s with
      | none => rfl
      | some c' =>
        simp only [Option.map_some', Option.some_bind]
        rw [eraseP_updTok]

theorem foldSetPathP_erase :
    ∀ (pvs : List (List Tok × String)) (R : PObj),
    List.foldlM (fun acc pv => setPath acc pv.1 pv.2) (eraseP R) pvs =
      (List.foldlM (fun acc pv => setPathP acc pv.1 pv.2) R pvs).map eraseP
  | [], R => rfl
  | pv :: pvs, R => by
    rw [List.foldlM_cons, List.foldlM_cons, eraseP_setPath]
    cases hs : setPathP R pv.1 pv.2 with
    | none => rfl
    | some R₁ =>
      simp only [Option.map_some']
      show List.foldlM (fun acc pv => setPath acc pv.1 pv.2) (eraseP R₁) pvs = _
      rw [foldSetPathP_erase pvs R₁]
      rfl

/-! Value-level locality of arbitrary-path assignment. -/

theorem setPath_local : ∀ (p : List Tok) (v : TV) (s : String) (v' : TV),
    setPath v p s = some v' →
    ∀ q, ¬ p <+: q → ¬ q <+: p → getPath v' q = getPath v q
  | [], v, s, v', h => by simp [setPath] at h
  | [t], v, s, v', h => by
    intro q hpq hqp
    match v, t, h with
    | .mapv kvs, .key k, h =>
      have hv' : v' = .mapv (kvs.setKey k (.strv s)) := by
        simp [setPath_one, TV.setTok] at h
        exact h.symm
      subst hv'
      match q with
      | [] => exact absurd (List.nil_prefix) hqp
      | u :: q' =>
        have hne : u ≠ Tok.key k := by
          intro hu
          subst hu
          exact hpq ⟨q', rfl⟩
        have heq : TV.getTok (.mapv (kvs.setKey k (.strv s))) u =
            TV.getTok (.mapv kvs) u := by
          cases u with
          | key k' =>
            simp only [TV.getTok]
            exact TVm.lookup_setKey_other (.strv s)
              (fun h0 => hne (congrArg Tok.key h0)) kvs
          | idx j => rfl
        rw [getPath_cons, getPath_cons, heq]
    | .seqv xs, .idx i, h =>
      rw [setPath_one, TV.setTok] at h
      by_cases hlt : i < xs.length
      · rw [if_pos hlt] at h
        have hv' : v' = .seqv (xs.set i (.strv s)) := (Option.some.inj h).symm
        subst hv'
        match q with
        | [] => exact absurd (List.nil_prefix) hqp
        | u :: q' =>
          have hne : u ≠ Tok.idx i := by
            intro hu
            subst hu
            exact hpq ⟨q', rfl⟩
          have heq : TV.getTok (.seqv (xs.set i (.strv s))) u =
              TV.getTok (.seqv xs) u := by
            cases u with
            | key k' => rfl
            | idx j =>
              simp only [TV.getTok]
              exact TVs.get?_set_other (.strv s) xs
                (fun h0 => hne (congrArg Tok.idx h0))
          rw [getPath_cons, getPath_cons, heq]
      · rw [if_neg hlt] at h
        exact absurd h (by simp)
  | t :: t' :: rest, v, s, v', h => by
    rw [setPath_cons₂] at h
    cases hgt : v.getTok t with
    | none => rw [hgt] at h; exact absurd h (by simp)
    | some child =>
      rw [hgt, Option.some_bind] at h
      cases hsp : setPath child (t' :: rest) s with
      | none => rw [hsp] at h; exact absurd h (by simp)
      | some c' =>
        rw [hsp, Option.some_bind] at h
        have hv' : v' = v.updTok t c' := (Option.some.inj h).symm
        subst hv'
        intro q hpq hqp
        match q with
        | [] => exact absurd (List.nil_prefix) hqp
        | u :: q' =>
          by_cases hu : u = t
          · subst hu
            have hpq' : ¬ (t' :: rest) <+: q' := by
              intro ⟨r, hr⟩
              exact hpq ⟨r, by simp [← hr]⟩
            have hqp' : ¬ q' <+: (t' :: rest) := by
              intro ⟨r, hr⟩
              exact hqp ⟨r, by simp [← hr]⟩
            rw [getPath_cons, getPath_cons, TV.updTok_getTok_self c' hgt, hgt]
            simp only [Option.some_bind]
            exact setPath_local (t' :: rest) child s c' hsp q' hpq' hqp'
          · rw [getPath_cons, getPath_cons, TV.updTok_getTok_other c' hu]

theorem foldSetPath_local :
    ∀ (pvs : List (List Tok × String)) (v v' : TV),
    List.foldlM (fun acc pv => setPath acc pv.1 pv.2) v pvs = some v' →
    ∀ q, (∀ pv ∈ pvs, ¬ pv.1 <+: q ∧ ¬ q <+: pv.1) →
    getPath v' q = getPath v q
  | [], v, v', h => by
    cases h
    exact fun q _ => rfl
  | pv :: pvs, v, v', h => by
    rw [List.foldlM_cons] at h
    cases hs : setPath v pv.1 pv.2 with
    | none => rw [hs] at h; exact absurd h (by simp)
    | some v₁ =>
      rw [hs] at h
      have h' : List.foldlM (fun acc pv => setPath acc pv.1 pv.2) v₁ pvs =
          some v' := h
      intro q hq
      obtain ⟨h1, h2⟩ := hq pv (List.mem_cons_self _ _)
      rw [foldSetPath_local pvs v₁ v' h' q
        (fun pv' hm => hq pv' (List.mem_cons_of_mem _ hm))]
      exact setPath_local pv.1 v pv.2 v₁ hs q h1 h2

/-- The concrete input object `{"a": "x"}` living at container address 0. -/
def exObjInput : PObj := .mapv 0 (.cons "a" (.strv "x") .nil)

/-- C4 counterexample: with an empty path list `_reconstruct_data` returns
the caller's object itself, not a deep copy — the result carries the input's
container address 0, i.e. it shares (all of) its mutable substructure with
the caller's tree. -/
theorem reconstruct_empty_paths_aliases :
    reconstructObj 1 exObjInput ["Y"] [] = some (1, exObjInput) ∧
    0 ∈ addrsP exObjInput ∧
    (∃ R, reconstructObj 1 exObjInput ["Y"] [] = some (1, R) ∧
      ∃ a, a ∈ addrsP R ∧ a ∈ addrsP exObjInput) :=
  ⟨rfl, by decide, ⟨exObjInput, rfl, ⟨0, by decide, by decide⟩⟩⟩

/-- C4 (amended): with a nonempty path list, reconstruction operates on a
fresh deep copy — every container address of the result is allocated at or
above the entry counter, hence disjoint from the caller's addresses — and
value-wise the result agrees with the input at every path that neither lies
on nor under one of the given paths.  With an empty path list the code
returns the very input object, value unchanged but fully aliased. -/
theorem reconstruct_fresh_copy :
    (∀ (n : Nat) (D : PObj) (tr : List String),
      reconstructObj n D tr [] = some (n, D)) ∧
    (∀ (n : Nat) (D : PObj) (tr : List String) (paths : List (List Tok))
        (n' : Nat) (R : PObj),
      paths ≠ [] → (∀ a ∈ addrsP D, a < n) →
      reconstructObj n D tr paths = some (n', R) →
      ∀ a ∈ addrsP R, n ≤ a ∧ a ∉ addrsP D) ∧
    (∀ (n : Nat) (D : PObj) (tr : List String) (paths : List (List Tok))
        (n' : Nat) (R : PObj),
      reconstructObj n D tr paths = some (n', R) →
      ∀ q : List Tok, (∀ p ∈ paths, ¬ p <+: q ∧ ¬ q <+: p) →
        getPath (eraseP R) q = getPath (eraseP D) q) := by
  refine ⟨fun n D tr => rfl, ?_, ?_⟩
  · intro n D tr paths n' R hne hbound hrec a ha
    have hie : paths.isEmpty = false := by
      cases paths with
      | nil => exact absurd rfl hne
      | cons p ps => rfl
    rw [reconstructObj, if_neg (by simp [hie])] at hrec
    cases hf : List.foldlM (fun acc pv => setPathP acc pv.1 pv.2)
        (deepCopyP n D).2 (pyDictOf (paths.zip tr)) with
    | none => rw [hf] at hrec; exact absurd hrec (by simp)
    | some R₀ =>
      rw [hf] at hrec
      simp only [Option.map_some', Option.some.injEq, Prod.mk.injEq] at hrec
      obtain ⟨_, hR⟩ := hrec
      subst hR
      obtain ⟨_, hcopy, _⟩ := deepCopyP_spec n D
      have hmem := foldSetPathP_addrs _ _ _ hf a ha
      have hbounds := hcopy a hmem
      refine ⟨hbounds.1, fun hmemD => ?_⟩
      have := hbound a hmemD
      omega
  · intro n D tr paths n' R hrec q hq
    by_cases hpe : paths = []
    · subst hpe
      have : reconstructObj n D tr [] = some (n, D) := rfl
      rw [this] at hrec
      simp only [Option.some.injEq, Prod.mk.injEq] at hrec
      rw [← hrec.2]
    · have hie : paths.isEmpty = false := by
        cases paths with
        | nil => exact absurd rfl hpe
        | cons p ps => rfl
      rw [reconstructObj, if_neg (by simp [hie])] at hrec
      cases hf : List.foldlM (fun acc pv => setPathP acc pv.1 pv.2)
          (deepCopyP n D).2 (pyDictOf (paths.zip tr)) with
      | none => rw [hf] at hrec; exact absurd hrec (by simp)
      | some R₀ =>
        rw [hf] at hrec
        simp only [Option.map_some', Option.some.injEq, Prod.mk.injEq] at hrec
        obtain ⟨_, hR⟩ := hrec
        subst hR
        have hval : List.foldlM (fun acc pv => setPath acc pv.1 pv.2)
            (eraseP (deepCopyP n D).2) (pyDictOf (paths.zip tr)) =
            some (eraseP R₀) := by
          rw [foldSetPathP_erase, hf]
          rfl
        have hdis : ∀ pv ∈ pyDictOf (paths.zip tr),
            ¬ pv.1 <+: q ∧ ¬ q <+: pv.1 := by
          intro pv hm
          have h1 : pv.1 ∈ (pyDictOf (paths.zip tr)).map Prod.fst :=
            List.mem_map_of_mem Prod.fst hm
          have h2 : pv.1 ∈ paths := zip_fst_mem (pyDictOf_keys _ _ h1)
          exact hq pv.1 h2
        have hloc := foldSetPath_local _ _ _ hval q hdis
        obtain ⟨_, _, hcerase⟩ := deepCopyP_spec n D
        rw [hloc, hcerase]

/-- Witness for `reconstruct_fresh_copy`: reconstructing `{"a": "x"}` (at
address 0, counter 1) along path `["a"]` yields an object whose only
container address is the freshly allocated 1. -/
theorem reconstruct_fresh_copy_witness :
    ∀ a ∈ addrsP (PObj.mapv 1 (.cons "a" (.strv "Y") .nil)),
      1 ≤ a ∧ a ∉ addrsP exObjInput :=
  reconstruct_fresh_copy.2.1 1 exObjInput ["Y"] [[Tok.key "a"]] 2
    (PObj.mapv 1 (.cons "a" (.strv "Y") .nil)) (by decide) (by decide) rfl
